import Mathlib

/-!
Verification development for the fdnix nixpkgs-catalog pipeline.

This file contains a shallow embedding of the parts of the pipeline that the
checked properties talk about:

* the name/version parser shared by `data_processor.py` and
  `dependency_graph.py` (`_parse_name_version`);
* the token estimator and sliding-window rate limiter of the embedding client
  (`gemini_client.py`);
* the package-id derivations of the relational writer (`sqlite_writer.py`)
  and of the compressed-artifact writer (`minified_writer.py`);
* the variant-merge logic of the relational writer
  (`_merge_package_variants` / `_deduplicate_packages`);
* the compressed-database builder of `minified_writer.py`
  (`_build_compressed_database`), with the zstd compressor/decompressor
  modelled as abstract functions;
* the shard-processing loop of `extract_dependencies.py`;
* the dependency-graph construction and traversal of `dependency_graph.py`.

Python strings are modelled as Lean `String`s; Python string helpers
(`split`, `strip`, `join`, substring test) are re-implemented below on
`List Char` so that they are fully executable and kernel-reducible.
-/

namespace Fdnix

/-! ## Python string helpers -/

/-- Split a character list at every occurrence of `c`, keeping empty pieces,
like Python's `str.split("<c>")`.  Splitting the empty string yields `[[]]`. -/
def splitCharList (c : Char) : List Char → List (List Char)
  | [] => [[]]
  | x :: xs =>
    let r := splitCharList c xs
    if x = c then [] :: r
    else
      match r with
      | [] => [[x]]
      | h :: t => (x :: h) :: t

/-- `splitCharList` never returns an empty list of pieces. -/
theorem splitCharList_ne_nil (c : Char) (s : List Char) : splitCharList c s ≠ [] := by
  induction s with
  | nil => simp [splitCharList]
  | cons x xs ih =>
    simp only [splitCharList]
    split
    · simp
    · cases h : splitCharList c xs with
      | nil => exact absurd h ih
      | cons hh tt => simp

/-- Python `name.split("<c>")` on a Lean `String`. -/
def pySplit (c : Char) (s : String) : List String :=
  (splitCharList c s.toList).map List.asString

/-- Python `"sep".join(parts)`. -/
def pyJoin (sep : String) : List String → String
  | [] => ""
  | [x] => x
  | x :: xs => x ++ sep ++ pyJoin sep xs

/-- Python `s.strip()`: drop leading and trailing whitespace. -/
def pyStrip (s : String) : String :=
  (((s.toList.dropWhile Char.isWhitespace).reverse.dropWhile Char.isWhitespace).reverse).asString

/-- Python `needle in hay` on strings (substring test). -/
def strContains (hay needle : String) : Bool :=
  decide (needle.toList <:+: hay.toList)

/-- Word count of Python `text.split()` (split on whitespace runs, no empty
words).  Used only to state the spec's token-estimate formula. -/
def wordCount (s : String) : Nat :=
  (s.toList.foldl
    (fun (st : Nat × Bool) c =>
      if c.isWhitespace then (st.1, false)
      else if st.2 then st else (st.1 + 1, true))
    (0, false)).1

/-! ## Name/version parsing

`DataProcessor._parse_name_version` (`data_processor.py`) and
`DependencyGraph._parse_name_version` (`dependency_graph.py`) are textually
identical; `parseNameVersion` embeds both. -/

/-- `part and (part[0].isdigit() or part.startswith('v'))`: a dash-separated
segment at which the version is considered to start. -/
def versionSegStart (part : String) : Bool :=
  match part.toList with
  | [] => false
  | ch :: _ => ch.isDigit || ch = 'v'

/-- Embedding of `_parse_name_version`: split on `-`, scan for the first
segment starting with a digit or `v`; fall back to treating the last segment
as the version. -/
def parseNameVersion (name : String) : String × String :=
  if name = "" then ("unknown", "unknown")
  else
    let parts := pySplit '-' name
    if parts.length < 2 then (name, "unknown")
    else
      match parts.findIdx? versionSegStart with
      | some i =>
        let packageName := pyJoin "-" (parts.take i)
        let version := pyJoin "-" (parts.drop i)
        (if packageName ≠ "" then packageName else name, version)
      | none => (pyJoin "-" parts.dropLast, parts.getLast!)

/-! ## Token estimation (`GeminiClient._estimate_tokens`) -/

/-- Embedding of `GeminiClient._estimate_tokens`:
`max(1, int(len(text) / 4))`. -/
def estimateTokens (text : String) : Nat :=
  max 1 (text.length / 4)

/-- The token-estimate formula as the spec words it:
`max(chars/4, word_count)`.  Stated only to compare with the code. -/
def specTokenEstimate (text : String) : Nat :=
  max (text.length / 4) (wordCount text)

/-! ## Package identifiers

`SQLiteWriter._package_id` (`sqlite_writer.py`) and
`MinifiedWriter._package_id` (`minified_writer.py`) differ only in how they
read the `attributePath` entry of the package dictionary:
`p.get("attributePath", "").strip()` versus
`(p.get("attributePath") or "").strip()`.  A dictionary value is modelled by
`JVal`; an absent key by `none`.  A result of `none` models a raised
exception (calling `.strip()` on a non-string value). -/

/-- A loosely-typed dictionary value: a string, a falsy non-string value
(`None`, `0`, `[]`, …), or a truthy non-string value. -/
inductive JVal where
  | jstr (s : String)
  | jfalsy
  | jtruthy
  deriving DecidableEq, Repr

/-- `p.get(key, "").strip()`: default `""` when absent, raise on a
non-string value. -/
def getDefaultStrip : Option JVal → Option String
  | none => some (pyStrip "")
  | some (.jstr s) => some (pyStrip s)
  | some .jfalsy => none
  | some .jtruthy => none

/-- `(p.get(key) or "").strip()`: absent and falsy values become `""`,
truthy non-string values raise. -/
def orEmptyStrip : Option JVal → Option String
  | none => some ""
  | some (.jstr s) => some (pyStrip s)
  | some .jfalsy => some ""
  | some .jtruthy => none

/-- The fields of a package dictionary read by the two `_package_id`
derivations. -/
structure PkgDict where
  attributePath : Option JVal
  packageName : Option JVal
  version : Option JVal

/-- `any(sys in parts[-1] for sys in ["linux", "darwin", "windows"])`. -/
def archSuffix (seg : String) : Bool :=
  ["linux", "darwin", "windows"].any (fun sys => strContains seg sys)

/-- Embedding of `SQLiteWriter._package_id`. -/
def sqlitePackageId (p : PkgDict) : Option String :=
  match getDefaultStrip p.attributePath with
  | none => none
  | some attrPath =>
    if attrPath ≠ "" then
      let parts := pySplit '.' attrPath
      if 2 ≤ parts.length ∧ archSuffix parts.getLast! = true then
        some (pyJoin "." parts.dropLast)
      else some attrPath
    else
      match orEmptyStrip p.packageName, orEmptyStrip p.version with
      | some name, some ver =>
          some (if name ≠ "" ∨ ver ≠ "" then name ++ "@" ++ ver else "unknown")
      | _, _ => none

/-- Embedding of `MinifiedWriter._package_id`. -/
def minifiedPackageId (p : PkgDict) : Option String :=
  match orEmptyStrip p.attributePath with
  | none => none
  | some attrPath =>
    if attrPath ≠ "" then
      let parts := pySplit '.' attrPath
      if 2 ≤ parts.length ∧ archSuffix parts.getLast! = true then
        some (pyJoin "." parts.dropLast)
      else some attrPath
    else
      match orEmptyStrip p.packageName, orEmptyStrip p.version with
      | some name, some ver =>
          some (if name ≠ "" ∨ ver ≠ "" then name ++ "@" ++ ver else "unknown")
      | _, _ => none

/-! ## Variant merging (`SQLiteWriter._merge_package_variants`)

`SQLiteWriter._deduplicate_packages` groups processed package dictionaries
by `_package_id` (preserving insertion order) and replaces every group of
two or more dictionaries by `_merge_package_variants(group)`.  The fields
that the merge reads are modelled by `PkgVariant`; `none` models an absent
key.  Python's `set` of platform strings is modelled by `List.dedup` of the
concatenation (the claims about it are stated up to set equality, matching
`list(set(...))`'s unspecified order). -/

/-- An element of a `platforms` list: a string, or a non-string value
(skipped by the `isinstance(platform, str)` check). -/
inductive PlatEntry where
  | str (s : String)
  | nonstr
  deriving DecidableEq, Repr

/-- An element of a `maintainers` list: a mapping (with the `(name, email,
github)` key fields as read by `.get(..., "")`), or a non-mapping value
(skipped by the `isinstance(maintainer, dict)` check). -/
inductive MaintEntry where
  | dict (name email github : String)
  | nonDict
  deriving DecidableEq, Repr

/-- The fields of a processed package dictionary that
`_merge_package_variants` reads and writes. -/
structure PkgVariant where
  platforms : Option (List PlatEntry)
  maintainers : Option (List MaintEntry)
  license : Option JVal
  description : Option JVal
  longDescription : Option JVal
  homepage : Option JVal
  category : Option JVal
  mainProgram : Option JVal
  broken : Option Bool
  unfree : Option Bool
  insecure : Option Bool
  unsupported : Option Bool
  available : Option Bool
  deriving DecidableEq, Repr

/-- Python truthiness of a possibly-absent dictionary value. -/
def jvalTruthy : Option JVal → Bool
  | none => false
  | some (.jstr s) => s ≠ ""
  | some .jfalsy => false
  | some .jtruthy => true

/-- The string platforms contributed by one variant (non-list `platforms`
values and non-string entries contribute nothing). -/
def platStrings (v : PkgVariant) : List String :=
  match v.platforms with
  | some l => l.filterMap (fun e => match e with | .str s => some s | .nonstr => none)
  | none => []

/-- `merged["platforms"] = list(all_architectures) if all_architectures
else None`, with the set of collected strings represented by `dedup` of the
concatenation. -/
def mergedPlatforms (vs : List PkgVariant) : Option (List PlatEntry) :=
  let all := ((vs.map platStrings).flatten).dedup
  if all.isEmpty then none else some (all.map PlatEntry.str)

/-- Python-dict update used for the maintainer union: a repeated key keeps
its first position but takes the latest value. -/
def updMaint (acc : List ((String × String × String) × MaintEntry))
    (k : String × String × String) (m : MaintEntry) :
    List ((String × String × String) × MaintEntry) :=
  if acc.any (fun p => p.1 = k) then
    acc.map (fun p => if p.1 = k then (k, m) else p)
  else acc ++ [(k, m)]

/-- `all_maintainers` accumulation: mapping entries keyed by
`(name, email, github)`, kept only when at least one key field is
non-empty; `merged["maintainers"] = list(values) or None`. -/
def mergedMaintainers (vs : List PkgVariant) : Option (List MaintEntry) :=
  let all := vs.foldl (fun acc v =>
    match v.maintainers with
    | some l => l.foldl (fun acc m =>
        match m with
        | .dict n e g =>
          if n ≠ "" ∨ e ≠ "" ∨ g ≠ "" then updMaint acc (n, e, g) m else acc
        | .nonDict => acc) acc
    | none => acc) []
  if all.isEmpty then none else some (all.map Prod.snd)

/-- `license`: first truthy value across the variants, otherwise the base
variant's value. -/
def firstTruthyLicense (vs : List PkgVariant) (base : Option JVal) : Option JVal :=
  match vs.find? (fun v => jvalTruthy v.license) with
  | some v => v.license
  | none => base

/-- `description`/`longDescription`/`homepage`/`category`/`mainProgram`:
first truthy value when the base variant's value is falsy. -/
def firstTruthyField (get : PkgVariant → Option JVal) (vs : List PkgVariant)
    (base : Option JVal) : Option JVal :=
  if jvalTruthy base then base
  else
    match vs.find? (fun v => jvalTruthy (get v)) with
    | some v => get v
    | none => base

/-- OR-combination of a boolean flag: set to `True` as soon as some variant
has a truthy value, otherwise keep the base variant's value. -/
def mergedOrFlag (get : PkgVariant → Option Bool) (vs : List PkgVariant)
    (base : Option Bool) : Option Bool :=
  if vs.any (fun v => (get v).getD false) then some true else base

/-- The empty dictionary returned for an empty variant list. -/
def emptyVariant : PkgVariant :=
  ⟨none, none, none, none, none, none, none, none, none, none, none, none, none⟩

/-- Embedding of `SQLiteWriter._merge_package_variants`. -/
def mergePackageVariants : List PkgVariant → PkgVariant
  | [] => emptyVariant
  | [v] => v
  | v :: w :: rest =>
    let vs := v :: w :: rest
    { v with
      platforms := mergedPlatforms vs
      maintainers := mergedMaintainers vs
      license := firstTruthyLicense vs v.license
      description := firstTruthyField (·.description) vs v.description
      longDescription := firstTruthyField (·.longDescription) vs v.longDescription
      homepage := firstTruthyField (·.homepage) vs v.homepage
      category := firstTruthyField (·.category) vs v.category
      mainProgram := firstTruthyField (·.mainProgram) vs v.mainProgram
      broken := mergedOrFlag (·.broken) vs v.broken
      unfree := mergedOrFlag (·.unfree) vs v.unfree
      insecure := mergedOrFlag (·.insecure) vs v.insecure
      unsupported := mergedOrFlag (·.unsupported) vs v.unsupported
      available := some (vs.all (fun u => u.available.getD true)) }

/-- The merge properties claimed for a group of variants: platforms are the
set-union of the variants' string platforms, `available` is the AND of the
`available` flags (absent ↦ `true`), and the four problem flags are ORs
(absent ↦ `false`). -/
def MergeSpecHolds (vs : List PkgVariant) : Prop :=
  (platStrings (mergePackageVariants vs)).toFinset =
      ((vs.map platStrings).flatten).toFinset ∧
  (mergePackageVariants vs).available.getD true =
      vs.all (fun v => v.available.getD true) ∧
  (mergePackageVariants vs).broken.getD false =
      vs.any (fun v => v.broken.getD false) ∧
  (mergePackageVariants vs).unfree.getD false =
      vs.any (fun v => v.unfree.getD false) ∧
  (mergePackageVariants vs).insecure.getD false =
      vs.any (fun v => v.insecure.getD false) ∧
  (mergePackageVariants vs).unsupported.getD false =
      vs.any (fun v => v.unsupported.getD false)

/-! ## Compressed-artifact writer (`MinifiedWriter._build_compressed_database`)

The zstd compressor and decompressor are external-library calls; they are
modelled as abstract functions `compress : String → β` and
`decompress : β → Option String` (with `none` modelling a raised
decompression error).  `json.dumps(obj, separators=(",", ":"))` is modelled
by a compact renderer `dumpJson` over a small JSON value type. -/

/-- A JSON value, as produced by `_create_package_json`. -/
inductive Json where
  | str (s : String)
  | bool (b : Bool)
  | int (n : Int)
  | null
  | arr (elems : List Json)
  | obj (fields : List (String × Json))

/-- JSON string escaping for one character. -/
def escChar (c : Char) : String :=
  if c = '"' then "\\\""
  else if c = '\\' then "\\\\"
  else if c = '\n' then "\\n"
  else if c = '\t' then "\\t"
  else if c = '\r' then "\\r"
  else String.singleton c

/-- JSON string escaping. -/
def jsonEscape (s : String) : String :=
  s.toList.foldr (fun c acc => escChar c ++ acc) ""

mutual

/-- Compact JSON rendering, modelling
`json.dumps(obj, separators=(",", ":"))`. -/
def dumpJson : Json → String
  | .str s => "\"" ++ jsonEscape s ++ "\""
  | .bool b => if b then "true" else "false"
  | .int n => toString n
  | .null => "null"
  | .arr xs => "[" ++ dumpArr xs ++ "]"
  | .obj fs => "\x7b" ++ dumpObj fs ++ "\x7d"

/-- Comma-separated rendering of array elements. -/
def dumpArr : List Json → String
  | [] => ""
  | [x] => dumpJson x
  | x :: y :: xs => dumpJson x ++ "," ++ dumpArr (y :: xs)

/-- Comma-separated rendering of object fields. -/
def dumpObj : List (String × Json) → String
  | [] => ""
  | [(k, v)] => "\"" ++ jsonEscape k ++ "\":" ++ dumpJson v
  | (k, v) :: f :: fs =>
      "\"" ++ jsonEscape k ++ "\":" ++ dumpJson v ++ "," ++ dumpObj (f :: fs)

end

/-- `_package_id` on a processed package whose relevant entries are strings
(the shape produced by the data processor); the `or ""` defaulting is folded
into the field values. -/
def packageIdOfStrings (attributePath packageName version : String) : String :=
  let attrPath := pyStrip attributePath
  if attrPath ≠ "" then
    let parts := pySplit '.' attrPath
    if 2 ≤ parts.length ∧ archSuffix parts.getLast! = true then
      pyJoin "." parts.dropLast
    else attrPath
  else
    let name := pyStrip packageName
    let ver := pyStrip version
    if name ≠ "" ∨ ver ≠ "" then name ++ "@" ++ ver else "unknown"

/-- The fields of a processed package dictionary read by the minified
writer, with string/boolean/integer entries already typed and the
structured entries (`license`, `platforms`, `maintainers`,
`outputs_to_install`) kept as JSON values. -/
structure MPkg where
  attributePath : String
  packageName : String
  version : String
  description : String
  longDescription : String
  homepage : String
  license : Json
  platforms : Json
  maintainers : Json
  category : String
  broken : Bool
  unfree : Bool
  available : Bool
  insecure : Bool
  unsupported : Bool
  mainProgram : String
  position : String
  outputsToInstall : Json
  lastUpdated : String
  contentHash : Int

/-- `MinifiedWriter._package_id` applied to a processed package. -/
def mPackageId (p : MPkg) : String :=
  packageIdOfStrings p.attributePath p.packageName p.version

/-- Embedding of `MinifiedWriter._create_package_json`. -/
def createPackageJson (p : MPkg) : Json :=
  .obj [
    ("package_id", .str (mPackageId p)),
    ("package_name", .str p.packageName),
    ("version", .str p.version),
    ("attribute_path", .str p.attributePath),
    ("description", .str p.description),
    ("long_description", .str p.longDescription),
    ("homepage", .str p.homepage),
    ("license", p.license),
    ("platforms", p.platforms),
    ("maintainers", p.maintainers),
    ("category", .str p.category),
    ("broken", .bool p.broken),
    ("unfree", .bool p.unfree),
    ("available", .bool p.available),
    ("insecure", .bool p.insecure),
    ("unsupported", .bool p.unsupported),
    ("main_program", .str p.mainProgram),
    ("position", .str p.position),
    ("outputs_to_install", p.outputsToInstall),
    ("last_updated", .str p.lastUpdated),
    ("content_hash", .int p.contentHash)]

/-- `_extract_fts_data`: the `name` column. -/
def extractFtsName (p : MPkg) : String := p.packageName

/-- `_extract_fts_data`: the `description` column. -/
def extractFtsDescription (p : MPkg) : String := p.description

/-- A database operation performed by `_build_compressed_database`, in
execution order.  `close` marks `conn.close()`. -/
inductive Stmt (β : Type) where
  | createKvTable
  | createFtsTable
  | createIndex
  | insertKv (id : String) (data : β)
  | insertFts (id name description : String)
  | commit
  | vacuum
  | analyze
  | close
  deriving DecidableEq, Repr

/-- Per-package loop of `_build_compressed_database`: serialize to compact
JSON, compress, immediately decompress and compare byte-for-byte (raising
on mismatch), then insert the key-value and FTS rows. -/
def insertPackageStmts {β : Type} (compress : String → β)
    (decompress : β → Option String) :
    List MPkg → Except String (List (Stmt β))
  | [] => .ok []
  | pkg :: rest =>
    match decompress (compress (dumpJson (createPackageJson pkg))) with
    | some d =>
      if d = dumpJson (createPackageJson pkg) then
        match insertPackageStmts compress decompress rest with
        | .ok tail =>
            .ok (Stmt.insertKv (mPackageId pkg)
                   (compress (dumpJson (createPackageJson pkg))) ::
                 Stmt.insertFts (mPackageId pkg) (extractFtsName pkg)
                   (extractFtsDescription pkg) ::
                 tail)
        | .error e => .error e
      else .error "Decompression verification failed"
    | none => .error "Decompression verification failed"

/-- Embedding of `_build_compressed_database`: schema creation, the
per-package compress/verify/insert loop, then commit, `VACUUM`, commit and
close. -/
def buildCompressedDatabase {β : Type} (compress : String → β)
    (decompress : β → Option String) (packages : List MPkg) :
    Except String (List (Stmt β)) :=
  match insertPackageStmts compress decompress packages with
  | .ok inserts =>
      .ok ([Stmt.createKvTable, Stmt.createFtsTable, Stmt.createIndex] ++ inserts ++
           [Stmt.commit, Stmt.vacuum, Stmt.commit, Stmt.close])
  | .error e => .error e

/-! ## Sharded extraction (`extract_dependencies.py`)

`run_sharded_extraction` and `extract_dependencies_data` run the same
shard loop: process prioritized shards in order, collect successes and
failures, and `break` as soon as the failed count exceeds half of all
discovered shards; afterwards they fail only when NO shard succeeded, and
otherwise combine the successful shards' results.  The outcome of
`process_shard_with_fallback` for each shard is supplied as input data
(`some data` = success, `none` = failure). -/

/-- A shard result: its packages as `(id, payload)` pairs (`""` models a
falsy/absent id).  Metadata not affecting the combined package list is
omitted. -/
structure ShardData where
  packages : List (String × String)
  deriving DecidableEq, Repr

/-- The shard loop: `total` is the number of discovered (prioritized)
shards, against which the `len(failed) > len(prioritized) // 2` early-stop
check compares. -/
def shardLoop {α : Type} (total : Nat) :
    List (Option α) → List α → Nat → List α × Nat
  | [], succ, f => (succ, f)
  | r :: rest, succ, f =>
    match r with
    | some d => shardLoop total rest (succ ++ [d]) f
    | none =>
      if total / 2 < f + 1 then (succ, f + 1)
      else shardLoop total rest succ (f + 1)

/-- `combine_shard_results` package dedup: keep the first occurrence of
every truthy package id, skipping falsy ids. -/
def dedupById : List (String × String) → List String → List (String × String)
  | [], _ => []
  | p :: rest, seen =>
    if p.1 ≠ "" ∧ p.1 ∉ seen then p :: dedupById rest (p.1 :: seen)
    else dedupById rest seen

/-- Embedding of `combine_shard_results` (the combined package list; the
combined metadata blob is omitted). -/
def combineShardResults (shards : List ShardData) : List (String × String) :=
  dedupById ((shards.map ShardData.packages).flatten) []

/-- Embedding of `extract_dependencies_data`'s shard phase: run the shard
loop, raise when no shard succeeded, otherwise combine the successful
shards. -/
def extractDependenciesData (outcomes : List (Option ShardData)) :
    Except String (List (String × String)) :=
  let res := shardLoop outcomes.length outcomes [] 0
  if res.1.isEmpty then .error "Sharded extraction failed for all shards"
  else .ok (combineShardResults res.1)

/-! ## Dependency graph (`dependency_graph.py`)

`DependencyGraph.build_from_raw_packages` makes two passes over the raw
records: pass 1 creates one vertex per accepted record and fills the
`node_id → vertex` and `drv_path → vertex` dictionaries (later assignments
overwrite earlier ones); pass 2 adds one edge per `inputDrvs` key that
resolves through the drv-path table, skipping self-loops and unresolved
targets.  Python dictionaries are modelled as association lists with
insert-or-replace update. -/

/-- A raw JSONL package record, with the fields the graph builder reads.
`inputDrvs` holds the keys of the record's `inputDrvs` mapping in
insertion order. -/
structure RawPkg where
  attrPath : List String
  name : String
  drvPath : String
  inputDrvs : List String
  deriving DecidableEq, Repr

/-- Python-dict insert-or-replace on an association list: a repeated key
keeps its first position but takes the latest value. -/
def assocUpd {κ ν : Type} [DecidableEq κ] (l : List (κ × ν)) (k : κ) (v : ν) :
    List (κ × ν) :=
  if l.any (fun p => p.1 = k) then l.map (fun p => if p.1 = k then (k, v) else p)
  else l ++ [(k, v)]

/-- Python-dict `get`. -/
def assocLookup {κ ν : Type} [DecidableEq κ] (l : List (κ × ν)) (k : κ) : Option ν :=
  match l.find? (fun p => decide (p.1 = k)) with
  | some p => some p.2
  | none => none

/-- Pass-1 state: the node id of every created vertex (indexed by vertex,
so `nodeIds.length` is the vertex count), the `node_id → vertex` table and
the `drv_path → vertex` table. -/
structure GraphState where
  nodeIds : List String
  nodeIdToVertex : List (String × Nat)
  packageMapping : List (String × Nat)
  deriving DecidableEq, Repr

/-- The state before the first pass. -/
def initialGraphState : GraphState := ⟨[], [], []⟩

/-- One record of the first pass: records whose parsed package name is
empty or `"unknown"` are skipped; otherwise a fresh vertex is created and
the lookup tables are updated (the drv-path table only for a non-empty
`drvPath`). -/
def pass1Step (s : GraphState) (p : RawPkg) : GraphState :=
  let pn := (parseNameVersion p.name).1
  let ver := (parseNameVersion p.name).2
  if pn = "" ∨ pn = "unknown" then s
  else
    let nodeId := pn ++ "-" ++ ver
    let v := s.nodeIds.length
    { nodeIds := s.nodeIds ++ [nodeId]
      nodeIdToVertex := assocUpd s.nodeIdToVertex nodeId v
      packageMapping :=
        if p.drvPath ≠ "" then assocUpd s.packageMapping p.drvPath v
        else s.packageMapping }

/-- The first pass. -/
def pass1 (pkgs : List RawPkg) : GraphState :=
  pkgs.foldl pass1Step initialGraphState

/-- One record of the second pass: one edge per `inputDrvs` key that
resolves to a known vertex and differs from the source vertex. -/
def pass2Step (s : GraphState) (edges : List (Nat × Nat)) (p : RawPkg) :
    List (Nat × Nat) :=
  let pn := (parseNameVersion p.name).1
  let ver := (parseNameVersion p.name).2
  if pn = "" ∨ pn = "unknown" then edges
  else
    match assocLookup s.nodeIdToVertex (pn ++ "-" ++ ver) with
    | none => edges
    | some src =>
      p.inputDrvs.foldl (fun es dep =>
        match assocLookup s.packageMapping dep with
        | some tgt => if tgt ≠ src then es ++ [(src, tgt)] else es
        | none => es) edges

/-- The second pass, run against the completed pass-1 state. -/
def pass2 (s : GraphState) (pkgs : List RawPkg) : List (Nat × Nat) :=
  pkgs.foldl (pass2Step s) []

/-- The built dependency graph. -/
structure Graph where
  state : GraphState
  edges : List (Nat × Nat)
  deriving DecidableEq, Repr

/-- Embedding of `build_from_raw_packages`. -/
def buildFromRawPackages (pkgs : List RawPkg) : Graph :=
  let s := pass1 pkgs
  ⟨s, pass2 s pkgs⟩

/-- `_build_adjacency`: the out-adjacency lists. -/
def buildOutAdj (n : Nat) (edges : List (Nat × Nat)) : List (List Nat) :=
  edges.foldl (fun adj e => adj.set e.1 (adj.getD e.1 [] ++ [e.2]))
    (List.replicate n [])

/-- `_build_adjacency`: the in-adjacency lists. -/
def buildInAdj (n : Nat) (edges : List (Nat × Nat)) : List (List Nat) :=
  edges.foldl (fun adj e => adj.set e.2 (adj.getD e.2 [] ++ [e.1]))
    (List.replicate n [])

/-- The out-adjacency of a built graph. -/
def graphOutAdj (g : Graph) : List (List Nat) :=
  buildOutAdj g.state.nodeIds.length g.edges

/-- `vertex_to_node_id.get(idx)` followed by the `if node_id:` truthiness
filter before appending. -/
def appendNodeId (nodeIds : List String) (v : Nat) (acc : List String) : List String :=
  match nodeIds.get? v with
  | some nid => if nid ≠ "" then acc ++ [nid] else acc
  | none => acc

/-- Embedding of `get_dependencies`: node ids of the out-neighbors of the
vertex looked up for `nodeId` (unknown nodes give `[]`). -/
def getDependencies (g : Graph) (nodeId : String) : List String :=
  match assocLookup g.state.nodeIdToVertex nodeId with
  | none => []
  | some v =>
    ((graphOutAdj g).getD v []).foldl
      (fun deps w => appendNodeId g.state.nodeIds w deps) []

/-- All vertices occurring in some adjacency list (used as the BFS
termination measure). -/
def adjTargets (adj : List (List Nat)) : Finset Nat :=
  (adj.flatten).toFinset

/-- `if nbr not in visited: visited.add(nbr); queue.append(nbr)` applied to
a neighbor list. -/
def enqueueFresh (vq : Finset Nat × List Nat) (nbrs : List Nat) :
    Finset Nat × List Nat :=
  nbrs.foldl (fun vq n => if n ∈ vq.1 then vq else (insert n vq.1, vq.2 ++ [n])) vq

theorem enqueueFresh_fst_mem (nbrs : List Nat) :
    ∀ (vis : Finset Nat) (q : List Nat) (x : Nat),
      x ∈ (enqueueFresh (vis, q) nbrs).1 ↔ x ∈ vis ∨ x ∈ nbrs := by
  induction nbrs with
  | nil =>
    intro vis q x
    simp [enqueueFresh]
  | cons n ns ih =>
    intro vis q x
    simp only [enqueueFresh, List.foldl_cons]
    by_cases hn : n ∈ vis
    · rw [if_pos hn]
      rw [show (List.foldl _ (vis, q) ns : Finset Nat × List Nat) =
            enqueueFresh (vis, q) ns from rfl]
      rw [ih vis q x]
      simp only [List.mem_cons]
      constructor
      · rintro (h | h)
        · exact Or.inl h
        · exact Or.inr (Or.inr h)
      · rintro (h | rfl | h)
        · exact Or.inl h
        · exact Or.inl hn
        · exact Or.inr h
    · rw [if_neg hn]
      rw [show (List.foldl _ (insert n vis, q ++ [n]) ns : Finset Nat × List Nat) =
            enqueueFresh (insert n vis, q ++ [n]) ns from rfl]
      rw [ih (insert n vis) (q ++ [n]) x]
      simp only [Finset.mem_insert, List.mem_cons]
      tauto

theorem enqueueFresh_eq_of_subset (nbrs : List Nat) :
    ∀ (vis : Finset Nat) (q : List Nat), (∀ n ∈ nbrs, n ∈ vis) →
      enqueueFresh (vis, q) nbrs = (vis, q) := by
  induction nbrs with
  | nil =>
    intro vis q _
    rfl
  | cons n ns ih =>
    intro vis q h
    simp only [enqueueFresh, List.foldl_cons]
    rw [if_pos (h n (List.mem_cons_self n ns))]
    exact ih vis q (fun m hm => h m (List.mem_cons_of_mem n hm))

theorem enqueueFresh_snd_append (nbrs : List Nat) :
    ∀ (vis : Finset Nat) (q : List Nat),
      ∃ new, (enqueueFresh (vis, q) nbrs).2 = q ++ new := by
  induction nbrs with
  | nil =>
    intro vis q
    exact ⟨[], by simp [enqueueFresh]⟩
  | cons n ns ih =>
    intro vis q
    simp only [enqueueFresh, List.foldl_cons]
    by_cases hn : n ∈ vis
    · rw [if_pos hn]
      exact ih vis q
    · rw [if_neg hn]
      obtain ⟨new, hnew⟩ := ih (insert n vis) (q ++ [n])
      exact ⟨[n] ++ new, by
        rw [show (List.foldl _ (insert n vis, q ++ [n]) ns : Finset Nat × List Nat) =
              enqueueFresh (insert n vis, q ++ [n]) ns from rfl, hnew, List.append_assoc]⟩

theorem mem_enqueueFresh_snd (nbrs : List Nat) :
    ∀ (vis : Finset Nat) (q : List Nat) (x : Nat), x ∈ nbrs →
      x ∈ vis ∨ x ∈ (enqueueFresh (vis, q) nbrs).2 := by
  induction nbrs with
  | nil =>
    intro vis q x hx
    simp at hx
  | cons n ns ih =>
    intro vis q x hx
    simp only [enqueueFresh, List.foldl_cons]
    by_cases hn : n ∈ vis
    · rw [if_pos hn]
      rcases List.mem_cons.mp hx with rfl | hx
      · exact Or.inl hn
      · exact ih vis q x hx
    · rw [if_neg hn]
      rw [show (List.foldl _ (insert n vis, q ++ [n]) ns : Finset Nat × List Nat) =
            enqueueFresh (insert n vis, q ++ [n]) ns from rfl]
      rcases List.mem_cons.mp hx with rfl | hx
      · obtain ⟨new, hnew⟩ := enqueueFresh_snd_append ns (insert x vis) (q ++ [x])
        refine Or.inr ?_
        rw [hnew]
        simp
      · rcases ih (insert n vis) (q ++ [n]) x hx with hv | hq
        · rcases Finset.mem_insert.mp hv with rfl | hv
          · obtain ⟨new, hnew⟩ := enqueueFresh_snd_append ns (insert x vis) (q ++ [x])
            refine Or.inr ?_
            rw [hnew]
            simp
          · exact Or.inl hv
        · exact Or.inr hq

theorem enqueueFresh_queue_sub_vis (nbrs : List Nat) :
    ∀ (vis : Finset Nat) (q : List Nat), (∀ x ∈ q, x ∈ vis) →
      ∀ x ∈ (enqueueFresh (vis, q) nbrs).2, x ∈ (enqueueFresh (vis, q) nbrs).1 := by
  induction nbrs with
  | nil =>
    intro vis q h x hx
    exact h x hx
  | cons n ns ih =>
    intro vis q h
    simp only [enqueueFresh, List.foldl_cons]
    by_cases hn : n ∈ vis
    · rw [if_pos hn]
      exact ih vis q h
    · rw [if_neg hn]
      refine ih (insert n vis) (q ++ [n]) ?_
      intro x hx
      rcases List.mem_append.mp hx with hx | hx
      · exact Finset.mem_insert_of_mem (h x hx)
      · simp only [List.mem_singleton] at hx
        subst hx
        exact Finset.mem_insert_self _ _

theorem mem_adjTargets_of_mem_getD (adj : List (List Nat)) (c x : Nat)
    (hx : x ∈ adj.getD c []) : x ∈ adjTargets adj := by
  by_cases hc : c < adj.length
  · rw [List.getD_eq_getElem?_getD, List.getElem?_eq_getElem hc] at hx
    simp only [Option.getD_some] at hx
    exact List.mem_toFinset.mpr (List.mem_flatten.mpr ⟨adj[c], List.getElem_mem hc, hx⟩)
  · rw [List.getD_eq_getElem?_getD, List.getElem?_eq_none (by omega)] at hx
    simp at hx

/-- The BFS loop of `_get_descendants`/`_get_ancestors`: pop the front of
the queue, record its node id, enqueue its unvisited neighbours. -/
def bfsLoop (adj : List (List Nat)) (nodeIds : List String) :
    Finset Nat → List Nat → List String → List String
  | _, [], acc => acc
  | visited, c :: rest, acc =>
    let acc' := appendNodeId nodeIds c acc
    let vq := enqueueFresh (visited, rest) (adj.getD c [])
    bfsLoop adj nodeIds vq.1 vq.2 acc'
termination_by visited queue _ => ((adjTargets adj \ visited).card, queue.length)
decreasing_by
  by_cases hall : ∀ n ∈ adj.getD c [], n ∈ visited
  · rw [enqueueFresh_eq_of_subset _ _ _ hall]
    exact Prod.Lex.right _ (by simp)
  · push_neg at hall
    obtain ⟨n, hn, hnv⟩ := hall
    have hsub : adjTargets adj \ (enqueueFresh (visited, rest) (adj.getD c [])).1 ⊆
        adjTargets adj \ visited := by
      intro x hx
      rw [Finset.mem_sdiff] at hx ⊢
      exact ⟨hx.1, fun hm => hx.2 ((enqueueFresh_fst_mem _ _ _ _).mpr (Or.inl hm))⟩
    have hns : n ∈ adjTargets adj \ visited :=
      Finset.mem_sdiff.mpr ⟨mem_adjTargets_of_mem_getD _ _ _ hn, hnv⟩
    have hnot : n ∉ adjTargets adj \ (enqueueFresh (visited, rest) (adj.getD c [])).1 :=
      fun hcon =>
        (Finset.mem_sdiff.mp hcon).2 ((enqueueFresh_fst_mem _ _ _ _).mpr (Or.inr hn))
    exact Prod.Lex.left _ _
      (Finset.card_lt_card ((Finset.ssubset_iff_of_subset hsub).mpr ⟨n, hns, hnot⟩))

/-- Embedding of `get_all_dependencies`/`_get_descendants`: seed the BFS
with the unvisited direct neighbors, then run the loop. -/
def getAllDependencies (g : Graph) (nodeId : String) : List String :=
  match assocLookup g.state.nodeIdToVertex nodeId with
  | none => []
  | some v =>
    let adj := graphOutAdj g
    let vq := enqueueFresh (∅, []) (adj.getD v [])
    bfsLoop adj g.state.nodeIds vq.1 vq.2 []

/-- One vertex-level dependency step in the adjacency lists. -/
def adjRel (adj : List (List Nat)) (a b : Nat) : Prop :=
  b ∈ adj.getD a []

/-- The package-level direct-dependency relation of a built graph: some
edge runs from a vertex labelled `a` to a vertex labelled `b`. -/
def nodeDepRel (g : Graph) (a b : String) : Prop :=
  ∃ e ∈ g.edges, g.state.nodeIds.get? e.1 = some a ∧
    g.state.nodeIds.get? e.2 = some b

/-! ## Rate limiter (`GeminiClient._respect_rate_limits`)

The limiter keeps two deques: request timestamps, and
`(timestamp, token-estimate)` pairs.  An acquisition samples
`now = time.monotonic()` BEFORE acquiring `self._rate_lock`, then under the
lock prunes entries older than `now - 60`, and if the capacity check
passes it immediately records `now` — even though the coroutine may have
waited arbitrarily long for the lock behind a holder that sleeps while
holding it, so the recorded timestamp can be stale (earlier than already
recorded events).  Only when the first check fails does the wait loop
sleep and refresh `now` before re-checking, in which case the recorded
timestamp is fresh.  The asyncio lock serializes acquisitions, so an
execution is a sequence of acquisition events; `LimiterRun` below is the
faithful model (with the stale first-check branch), and `ValidRun` is its
restriction to executions whose recorded timestamps are fresh — the
discipline the surrounding spec intends.  Successive prunes at
nondecreasing cutoffs compose into the final prune, so each wait loop is
summarized by its final check time.  Timestamps are modelled as
rationals. -/

/-- The configured limits (`requests_per_minute`, `tokens_per_minute`). -/
structure RateLimits where
  maxRpm : Nat
  maxTpm : Nat

/-- The two deques of the limiter. -/
structure RateState where
  reqTimes : List ℚ
  tokTimes : List (ℚ × Nat)
  deriving DecidableEq

/-- The deques start empty. -/
def initialRateState : RateState := ⟨[], []⟩

/-- `while self._req_times and self._req_times[0] < cutoff: popleft()`. -/
def pruneReq (cutoff : ℚ) (l : List ℚ) : List ℚ :=
  l.dropWhile (fun t => decide (t < cutoff))

/-- `while self._tok_times and self._tok_times[0][0] < cutoff: popleft()`. -/
def pruneTok (cutoff : ℚ) (l : List (ℚ × Nat)) : List (ℚ × Nat) :=
  l.dropWhile (fun e => decide (e.1 < cutoff))

/-- `token_sum()`. -/
def tokenSum (l : List (ℚ × Nat)) : Nat :=
  (l.map Prod.snd).sum

/-- The exit condition of the wait loop, evaluated at time `now` for an
estimate of `est` tokens: after pruning at `now - 60`, the request count is
below `max_rpm` and the token sum plus `est` does not exceed `max_tpm`. -/
def acquireOk (lim : RateLimits) (s : RateState) (now : ℚ) (est : Nat) : Prop :=
  (pruneReq (now - 60) s.reqTimes).length < lim.maxRpm ∧
  tokenSum (pruneTok (now - 60) s.tokTimes) + est ≤ lim.maxTpm

/-- The recording step: append the request timestamp and token cost to the
pruned deques. -/
def acquireResult (s : RateState) (now : ℚ) (est : Nat) : RateState :=
  ⟨pruneReq (now - 60) s.reqTimes ++ [now],
   pruneTok (now - 60) s.tokTimes ++ [(now, est)]⟩

/-- The fresh-timestamp acquisition discipline, from state `s` at clock
value `t`: each event `(now, est)` is checked and recorded at a time
`now ≥ t` not earlier than every previously recorded event.  This is the
discipline `_respect_rate_limits` intends (and would have if `now` were
sampled after acquiring the lock); the code itself only guarantees the
weaker `LimiterRun` below, because `now` is sampled before the lock is
acquired. -/
inductive ValidRun (lim : RateLimits) : RateState → ℚ → List (ℚ × Nat) → Prop
  | nil (s : RateState) (t : ℚ) : ValidRun lim s t []
  | cons (s : RateState) (t now : ℚ) (est : Nat) (rest : List (ℚ × Nat)) :
      t ≤ now → acquireOk lim s now est →
      ValidRun lim (acquireResult s now est) now rest →
      ValidRun lim s t ((now, est) :: rest)

/-- The faithful model of `_respect_rate_limits` executions.  `t` is the
monotonic-clock time at which the previous lock holder released the rate
lock.  In `stepStale`, a coroutine sampled `now = tsamp` before the lock
was granted to it at time `tlock ≥ tsamp`; its first capacity check passes
at the possibly stale `tsamp`, which it records.  In `stepWait`, the first
check at the sampled time fails, so the loop sleeps (holding the lock) and
refreshes `now`; the successive prunes at nondecreasing cutoffs compose
into the final one, so the iteration is summarized by the fresh time
`now ≥ tlock` at which the check first passes and which is recorded. -/
inductive LimiterRun (lim : RateLimits) : RateState → ℚ → List (ℚ × Nat) → Prop
  | nil (s : RateState) (t : ℚ) : LimiterRun lim s t []
  | stepStale (s : RateState) (t tsamp tlock : ℚ) (est : Nat)
      (rest : List (ℚ × Nat)) :
      t ≤ tlock → tsamp ≤ tlock →
      acquireOk lim s tsamp est →
      LimiterRun lim (acquireResult s tsamp est) tlock rest →
      LimiterRun lim s t ((tsamp, est) :: rest)
  | stepWait (s : RateState) (t tsamp tlock now : ℚ) (est : Nat)
      (rest : List (ℚ × Nat)) :
      t ≤ tlock → tsamp ≤ tlock → tlock ≤ now →
      ¬ acquireOk lim s tsamp est →
      acquireOk lim s now est →
      LimiterRun lim (acquireResult s now est) now rest →
      LimiterRun lim s t ((now, est) :: rest)

/-- The recorded events whose timestamp lies in the trailing 60-second
window `[q - 60, q]`. -/
def windowEvents (evs : List (ℚ × Nat)) (q : ℚ) : List (ℚ × Nat) :=
  evs.filter (fun e => decide (q - 60 ≤ e.1) && decide (e.1 ≤ q))

/-- An observable event of one embedding worker. -/
inductive ClientEvent where
  | acquire (est : Nat)
  | request (attempt : Nat)
  deriving DecidableEq, Repr

/-- The event sequence of one worker in `generate_embeddings_batch`:
`_respect_rate_limits(text)` (inside the semaphore), then the HTTP request
attempts of `_generate_single_embedding_with_retry`. -/
def workerEvents (text : String) (attempts : Nat) : List ClientEvent :=
  ClientEvent.acquire (estimateTokens text) ::
    (List.range attempts).map ClientEvent.request

/-! ## Helper lemmas on the string utilities -/

theorem pyStrip_empty : pyStrip "" = "" := rfl

/-- A character occurs in a list iff splitting at it yields at least two
pieces. -/
theorem two_le_splitCharList_length_iff (c : Char) (s : List Char) :
    2 ≤ (splitCharList c s).length ↔ c ∈ s := by
  induction s with
  | nil => simp [splitCharList]
  | cons x xs ih =>
    simp only [splitCharList]
    by_cases hx : x = c
    · subst hx
      rw [if_pos rfl]
      simp only [List.length_cons]
      have h1 : 0 < (splitCharList x xs).length :=
        List.length_pos.mpr (splitCharList_ne_nil x xs)
      constructor
      · intro _; exact List.mem_cons_self x xs
      · intro _; omega
    · rw [if_neg hx]
      cases h : splitCharList c xs with
      | nil => exact absurd h (splitCharList_ne_nil c xs)
      | cons hh tt =>
        simp only [List.length_cons, List.mem_cons]
        rw [h] at ih
        simp only [List.length_cons] at ih
        constructor
        · intro hl; exact Or.inr (ih.mp hl)
        · rintro (rfl | hm)
          · exact absurd rfl hx
          · exact ih.mpr hm

/-- `strContains name c` for a single character `c` means at least two
split pieces. -/
theorem strContains_dash_iff (name : String) :
    strContains name "-" = true ↔ 2 ≤ (pySplit '-' name).length := by
  have hmem : '-' ∈ name.toList ↔ 2 ≤ (pySplit '-' name).length := by
    rw [← two_le_splitCharList_length_iff '-' name.toList]
    simp [pySplit]
  rw [← hmem]
  simp only [strContains, decide_eq_true_eq]
  constructor
  · intro h
    exact List.singleton_sublist.mp (by simpa using h.sublist)
  · intro h
    obtain ⟨l₁, l₂, hl⟩ := List.append_of_mem h
    exact ⟨l₁, l₂, by rw [hl]; simp⟩

/-- If no element satisfies the predicate, `findIdx?` returns `none`
(for any start index). -/
theorem findIdx?_eq_none_of_all_false {α : Type} (p : α → Bool) (l : List α)
    (h : ∀ a ∈ l, p a = false) : ∀ i, List.findIdx? p l i = none := by
  induction l with
  | nil => intro i; rfl
  | cons x xs ih =>
    intro i
    rw [List.findIdx?_cons, h x (List.mem_cons_self x xs)]
    simp only [Bool.false_eq_true, if_false]
    exact ih (fun a ha => h a (List.mem_cons_of_mem x ha)) (i + 1)

/-! ## C1: variant merge -/

theorem filterMap_platStr (l : List String) :
    (l.map PlatEntry.str).filterMap
      (fun e => match e with | .str s => some s | .nonstr => none) = l := by
  induction l with
  | nil => rfl
  | cons x xs ih => simp only [List.map_cons, List.filterMap_cons, ih]

theorem platStrings_eq_none {p : PkgVariant} (h : p.platforms = none) :
    platStrings p = [] := by
  unfold platStrings
  rw [h]

theorem platStrings_eq_some {p : PkgVariant} {l : List PlatEntry}
    (h : p.platforms = some l) :
    platStrings p =
      l.filterMap (fun e => match e with | .str s => some s | .nonstr => none) := by
  unfold platStrings
  rw [h]

theorem platStrings_merged (vs : List PkgVariant) (p : PkgVariant)
    (hp : p.platforms = mergedPlatforms vs) :
    (platStrings p).toFinset = ((vs.map platStrings).flatten).toFinset := by
  by_cases h : ((vs.map platStrings).flatten).dedup.isEmpty = true
  · have hnil : (vs.map platStrings).flatten = [] := by
      rwa [List.isEmpty_iff, List.dedup_eq_nil] at h
    have hpn : p.platforms = none := by
      rw [hp]
      unfold mergedPlatforms
      rw [if_pos h]
    rw [platStrings_eq_none hpn, hnil]
  · have hps : p.platforms =
        some ((((vs.map platStrings).flatten).dedup).map PlatEntry.str) := by
      rw [hp]
      unfold mergedPlatforms
      rw [if_neg h]
    rw [platStrings_eq_some hps, filterMap_platStr]
    exact List.toFinset.ext_iff.mpr (fun x => List.mem_dedup)

theorem mergedOrFlag_getD (get : PkgVariant → Option Bool) (vs : List PkgVariant)
    (v : PkgVariant) (hv : v ∈ vs) :
    (mergedOrFlag get vs (get v)).getD false = vs.any (fun u => (get u).getD false) := by
  unfold mergedOrFlag
  by_cases h : vs.any (fun u => (get u).getD false) = true
  · simp [h]
  · have hb : vs.any (fun u => (get u).getD false) = false := by simpa using h
    rw [hb]
    simp only [Bool.false_eq_true, if_false]
    have hv' := List.any_eq_false.mp hb v hv
    simpa using hv'

/-- C1: for every group of two or more processed package records, the
variant merge returns a package whose platforms equal the set-union of the
variants' string platforms, whose `available` flag is the AND of the
variants' `available` flags (absent defaults to `true`), and whose
`broken`/`unfree`/`insecure`/`unsupported` flags are the ORs of the
corresponding variant flags (absent defaults to `false`). -/
theorem merge_package_variants_props (vs : List PkgVariant) (h2 : 2 ≤ vs.length) :
    MergeSpecHolds vs := by
  rcases vs with _ | ⟨v, _ | ⟨w, rest⟩⟩
  · simp at h2
  · simp at h2
  · refine ⟨?_, ?_, ?_, ?_, ?_, ?_⟩
    · exact platStrings_merged (v :: w :: rest) _ rfl
    · rfl
    · exact mergedOrFlag_getD (fun u => u.broken) (v :: w :: rest) v (by simp)
    · exact mergedOrFlag_getD (fun u => u.unfree) (v :: w :: rest) v (by simp)
    · exact mergedOrFlag_getD (fun u => u.insecure) (v :: w :: rest) v (by simp)
    · exact mergedOrFlag_getD (fun u => u.unsupported) (v :: w :: rest) v (by simp)

/-- A concrete two-variant group used to witness the merge properties. -/
def variantA : PkgVariant :=
  { emptyVariant with
      platforms := some [.str "x86_64-linux", .nonstr]
      unfree := some true
      available := some true
      broken := some false }

/-- A second concrete variant for the witness group. -/
def variantB : PkgVariant :=
  { emptyVariant with
      platforms := some [.str "aarch64-darwin", .str "x86_64-linux"]
      insecure := some true }

/-- Witness for `merge_package_variants_props` at a concrete group of two
variants. -/
theorem merge_package_variants_props_witness :
    2 ≤ [variantA, variantB].length ∧ MergeSpecHolds [variantA, variantB] :=
  ⟨by decide, merge_package_variants_props [variantA, variantB] (by decide)⟩

/-! ## C3: compression round-trip verification -/

theorem insertPackageStmts_ok {β : Type} (c : String → β) (d : β → Option String) :
    ∀ (ps : List MPkg) (l : List (Stmt β)), insertPackageStmts c d ps = .ok l →
      ∀ pkg ∈ ps,
        d (c (dumpJson (createPackageJson pkg))) =
            some (dumpJson (createPackageJson pkg)) ∧
        Stmt.insertKv (mPackageId pkg) (c (dumpJson (createPackageJson pkg))) ∈ l := by
  intro ps
  induction ps with
  | nil =>
    intro l h pkg hpkg
    simp at hpkg
  | cons p rest ih =>
    intro l h pkg hpkg
    rw [insertPackageStmts] at h
    split at h
    · rename_i dd hd
      split at h
      · rename_i he
        split at h
        · rename_i tail ht
          simp only [Except.ok.injEq] at h
          subst h
          rcases List.mem_cons.mp hpkg with hpkg | hpkg
          · subst hpkg
            refine ⟨by rw [hd, he], ?_⟩
            exact List.mem_cons_self _ _
          · have := ih tail ht pkg hpkg
            exact ⟨this.1,
              List.mem_cons_of_mem _ (List.mem_cons_of_mem _ this.2)⟩
        · simp at h
      · simp at h
    · simp at h

theorem insertPackageStmts_error {β : Type} (c : String → β) (d : β → Option String) :
    ∀ (ps : List MPkg) (pkg : MPkg), pkg ∈ ps →
      d (c (dumpJson (createPackageJson pkg))) ≠
          some (dumpJson (createPackageJson pkg)) →
      ∀ l, insertPackageStmts c d ps ≠ .ok l := by
  intro ps
  induction ps with
  | nil =>
    intro pkg hpkg
    simp at hpkg
  | cons p rest ih =>
    intro pkg hpkg hne l h
    rw [insertPackageStmts] at h
    split at h
    · rename_i dd hd
      split at h
      · rename_i he
        rcases List.mem_cons.mp hpkg with hpkg | hpkg
        · subst hpkg
          exact hne (by rw [hd, he])
        · split at h
          · rename_i tail ht
            exact ih pkg hpkg hne tail ht
          · simp at h
      · simp at h
    · simp at h

/-- C3: whenever `_build_compressed_database` completes, every `packages_kv`
row holds bytes that decompress to exactly the compact JSON serialization
of its package; and if any package's compressed bytes fail the immediate
round-trip check, the run raises instead of completing. -/
theorem build_compressed_roundtrip {β : Type} (compress : String → β)
    (decompress : β → Option String) (packages : List MPkg) :
    (∀ stmts, buildCompressedDatabase compress decompress packages = .ok stmts →
      ∀ pkg ∈ packages,
        decompress (compress (dumpJson (createPackageJson pkg))) =
            some (dumpJson (createPackageJson pkg)) ∧
        Stmt.insertKv (mPackageId pkg)
            (compress (dumpJson (createPackageJson pkg))) ∈ stmts) ∧
    ((∃ pkg ∈ packages,
        decompress (compress (dumpJson (createPackageJson pkg))) ≠
          some (dumpJson (createPackageJson pkg))) →
      ∀ stmts, buildCompressedDatabase compress decompress packages ≠ .ok stmts) := by
  constructor
  · intro stmts h pkg hpkg
    unfold buildCompressedDatabase at h
    rcases hins : insertPackageStmts compress decompress packages with e | inserts
    · rw [hins] at h
      simp at h
    · rw [hins] at h
      simp only [Except.ok.injEq] at h
      subst h
      have := insertPackageStmts_ok compress decompress packages inserts hins pkg hpkg
      refine ⟨this.1, ?_⟩
      refine List.mem_append_left _ (List.mem_append_right _ this.2)
  · rintro ⟨pkg, hpkg, hne⟩ stmts h
    unfold buildCompressedDatabase at h
    rcases hins : insertPackageStmts compress decompress packages with e | inserts
    · rw [hins] at h
      simp at h
    · exact insertPackageStmts_error compress decompress packages pkg hpkg hne inserts hins

/-- A concrete processed package used for witnesses. -/
def samplePkg : MPkg :=
  ⟨"hello.x86_64-linux", "hello", "2.12", "GNU Hello", "", "https://gnu.org",
   Json.null, Json.arr [Json.str "x86_64-linux"], Json.null, "misc",
   false, false, true, false, false, "hello", "", Json.null, "", 0⟩

set_option maxRecDepth 8000 in
/-- Witness for `build_compressed_roundtrip`: with the identity
compressor/decompressor on one package, the build completes and its
key-value row round-trips. -/
theorem build_compressed_roundtrip_witness :
    (some (dumpJson (createPackageJson samplePkg)) : Option String) =
        some (dumpJson (createPackageJson samplePkg)) ∧
    Stmt.insertKv (mPackageId samplePkg) (dumpJson (createPackageJson samplePkg)) ∈
      [Stmt.createKvTable, Stmt.createFtsTable, Stmt.createIndex,
       Stmt.insertKv (mPackageId samplePkg) (dumpJson (createPackageJson samplePkg)),
       Stmt.insertFts (mPackageId samplePkg) (extractFtsName samplePkg)
         (extractFtsDescription samplePkg),
       Stmt.commit, Stmt.vacuum, Stmt.commit, Stmt.close] :=
  (build_compressed_roundtrip (fun s => s) some [samplePkg]).1 _ rfl samplePkg
    (List.mem_singleton_self _)

/-! ## C8: finalization statements -/

/-- `insertPackageStmts` only emits row inserts. -/
theorem insertPackageStmts_only_inserts {β : Type} (c : String → β)
    (d : β → Option String) :
    ∀ (ps : List MPkg) (l : List (Stmt β)), insertPackageStmts c d ps = .ok l →
      ∀ s ∈ l, (∃ i x, s = Stmt.insertKv i x) ∨ ∃ i n de, s = Stmt.insertFts i n de := by
  intro ps
  induction ps with
  | nil =>
    intro l h s hs
    rw [insertPackageStmts] at h
    simp only [Except.ok.injEq] at h
    subst h
    simp at hs
  | cons p rest ih =>
    intro l h s hs
    rw [insertPackageStmts] at h
    split at h
    · rename_i dd hd
      split at h
      · rename_i he
        split at h
        · rename_i tail ht
          simp only [Except.ok.injEq] at h
          subst h
          simp only [List.mem_cons] at hs
          rcases hs with hs | hs | hs
          · exact Or.inl ⟨_, _, hs⟩
          · exact Or.inr ⟨_, _, _, hs⟩
          · exact ih tail ht s hs
        · simp at h
      · simp at h
    · simp at h

set_option maxRecDepth 4000 in
/-- C8 (counterexample): a successful build (here: the empty package list
with the identity compressor) never executes `ANALYZE`; the claim that the
writer executes both `VACUUM` and `ANALYZE` before closing is false. -/
theorem build_analyze_counterexample :
    buildCompressedDatabase (fun s => s) some ([] : List MPkg) =
      .ok [Stmt.createKvTable, Stmt.createFtsTable, Stmt.createIndex,
           Stmt.commit, Stmt.vacuum, Stmt.commit, Stmt.close] ∧
    Stmt.analyze ∉
      ([Stmt.createKvTable, Stmt.createFtsTable, Stmt.createIndex,
        Stmt.commit, Stmt.vacuum, Stmt.commit, Stmt.close] : List (Stmt String)) :=
  ⟨rfl, by decide⟩

/-- C8 (amended): whenever `_build_compressed_database` completes, its
statement trace ends with commit, `VACUUM`, commit, close — so `VACUUM` is
executed before closing — and contains no `ANALYZE` statement. -/
theorem build_finalization {β : Type} (compress : String → β)
    (decompress : β → Option String) (packages : List MPkg)
    (stmts : List (Stmt β))
    (h : buildCompressedDatabase compress decompress packages = .ok stmts) :
    (∃ pre, stmts = pre ++ [Stmt.commit, Stmt.vacuum, Stmt.commit, Stmt.close]) ∧
      Stmt.analyze ∉ stmts := by
  unfold buildCompressedDatabase at h
  rcases hins : insertPackageStmts compress decompress packages with e | inserts
  · rw [hins] at h
    simp at h
  · rw [hins] at h
    simp only [Except.ok.injEq] at h
    subst h
    constructor
    · exact ⟨[Stmt.createKvTable, Stmt.createFtsTable, Stmt.createIndex] ++ inserts,
        by simp⟩
    · intro hmem
      rcases List.mem_append.mp hmem with hmem | hmem
      · rcases List.mem_append.mp hmem with hmem | hmem
        · simp at hmem
        · rcases insertPackageStmts_only_inserts compress decompress packages inserts
            hins _ hmem with ⟨i, x, hx⟩ | ⟨i, n, de, hx⟩ <;> cases hx
      · simp at hmem

set_option maxRecDepth 4000 in
/-- Witness for `build_finalization` on the empty package list. -/
theorem build_finalization_witness :
    (∃ pre, ([Stmt.createKvTable, Stmt.createFtsTable, Stmt.createIndex,
              Stmt.commit, Stmt.vacuum, Stmt.commit, Stmt.close] : List (Stmt String)) =
        pre ++ [Stmt.commit, Stmt.vacuum, Stmt.commit, Stmt.close]) ∧
      Stmt.analyze ∉
        ([Stmt.createKvTable, Stmt.createFtsTable, Stmt.createIndex,
          Stmt.commit, Stmt.vacuum, Stmt.commit, Stmt.close] : List (Stmt String)) :=
  build_finalization (fun s => s) some [] _ rfl

/-! ## C5: excessive shard failures -/

/-- A concrete successful shard result. -/
def sampleShard : ShardData := ⟨[("a", "pkgA")]⟩

/-- The concrete shard outcome list used for C5: one success, then two
failures (2 of 3 shards fail, which is more than 50%). -/
def sampleOutcomes : List (Option ShardData) := [some sampleShard, none, none]

/-- C5 (counterexample): with 3 discovered shards of which 2 fail (more
than 50%), the run is NOT aborted: the loop stops early, but the combined
output of the one successful shard is still produced.  This refutes the
claim that no combined output dataset is produced when more than 50% of
shards fail. -/
theorem sharded_extraction_counterexample :
    (shardLoop sampleOutcomes.length sampleOutcomes [] 0).2 = 2 ∧
    sampleOutcomes.length / 2 < 2 ∧
    extractDependenciesData sampleOutcomes = .ok [("a", "pkgA")] := by
  refine ⟨by decide, by decide, rfl⟩

theorem shardLoop_failed_le {α : Type} (total : Nat) :
    ∀ (rest : List (Option α)) (succ : List α) (f : Nat), f ≤ total / 2 →
      (shardLoop total rest succ f).2 ≤ total / 2 + 1 := by
  intro rest
  induction rest with
  | nil =>
    intro succ f hf
    unfold shardLoop
    omega
  | cons r rest ih =>
    intro succ f hf
    match r with
    | some d =>
      rw [shardLoop]
      exact ih (succ ++ [d]) f hf
    | none =>
      rw [shardLoop]
      by_cases hc : total / 2 < f + 1
      · rw [if_pos hc]
        omega
      · rw [if_neg hc]
        exact ih succ (f + 1) (by omega)

/-- C5 (amended): once the failed-shard count exceeds half of the
discovered shards the loop stops early (so the recorded failure count never
exceeds `total/2 + 1`); the run is aborted with no combined output only
when NO shard succeeded, and otherwise the combined output of the
successful shards is produced. -/
theorem sharded_extraction_behavior (outcomes : List (Option ShardData)) :
    (shardLoop outcomes.length outcomes [] 0).2 ≤ outcomes.length / 2 + 1 ∧
    ((shardLoop outcomes.length outcomes [] 0).1 = [] →
      extractDependenciesData outcomes =
        .error "Sharded extraction failed for all shards") ∧
    ((shardLoop outcomes.length outcomes [] 0).1 ≠ [] →
      extractDependenciesData outcomes =
        .ok (combineShardResults (shardLoop outcomes.length outcomes [] 0).1)) := by
  refine ⟨shardLoop_failed_le _ _ [] 0 (by omega), ?_, ?_⟩
  · intro h
    simp only [extractDependenciesData]
    rw [h]
    rfl
  · intro h
    simp only [extractDependenciesData]
    rw [if_neg]
    intro hc
    exact h (List.isEmpty_iff.mp hc)

/-- Witness for `sharded_extraction_behavior` at the concrete outcome
list. -/
theorem sharded_extraction_behavior_witness :
    (shardLoop sampleOutcomes.length sampleOutcomes [] 0).1 ≠ [] ∧
    extractDependenciesData sampleOutcomes =
      .ok (combineShardResults (shardLoop sampleOutcomes.length sampleOutcomes [] 0).1) :=
  ⟨by decide, (sharded_extraction_behavior sampleOutcomes).2.2 (by decide)⟩

/-! ## Graph construction invariants -/

theorem assocUpd_mem {κ ν : Type} [DecidableEq κ] (l : List (κ × ν)) (k : κ) (v : ν)
    (p : κ × ν) (hp : p ∈ assocUpd l k v) : p = (k, v) ∨ p ∈ l := by
  unfold assocUpd at hp
  split at hp
  · obtain ⟨q, hq, hpq⟩ := List.mem_map.mp hp
    by_cases hqk : q.1 = k
    · rw [if_pos hqk] at hpq
      exact Or.inl hpq.symm
    · rw [if_neg hqk] at hpq
      exact Or.inr (hpq ▸ hq)
  · rcases List.mem_append.mp hp with h | h
    · exact Or.inr h
    · simp only [List.mem_singleton] at h
      exact Or.inl h

theorem assocLookup_mem {κ ν : Type} [DecidableEq κ] (l : List (κ × ν)) (k : κ) (v : ν)
    (h : assocLookup l k = some v) : (k, v) ∈ l := by
  unfold assocLookup at h
  cases hf : l.find? (fun p => decide (p.1 = k)) with
  | none =>
    rw [hf] at h
    cases h
  | some q =>
    rw [hf] at h
    simp only [Option.some.injEq] at h
    have hq := List.mem_of_find?_eq_some hf
    have hk := List.find?_some hf
    simp only [decide_eq_true_eq] at hk
    rw [← hk, ← h]
    simpa using hq

/-- The pass-1 invariant: every table entry points at an existing vertex,
and the `node_id → vertex` table is consistent with the per-vertex ids. -/
def GraphInv (s : GraphState) : Prop :=
  (∀ p ∈ s.nodeIdToVertex, p.2 < s.nodeIds.length ∧ s.nodeIds.get? p.2 = some p.1) ∧
  (∀ p ∈ s.packageMapping, p.2 < s.nodeIds.length)

theorem graphInv_initial : GraphInv initialGraphState := by
  constructor
  · intro p hp
    simp [initialGraphState] at hp
  · intro p hp
    simp [initialGraphState] at hp

theorem graphInv_pass1Step (s : GraphState) (p : RawPkg) (h : GraphInv s) :
    GraphInv (pass1Step s p) := by
  simp only [pass1Step]
  split
  · exact h
  · constructor
    · intro q hq
      rcases assocUpd_mem _ _ _ q hq with rfl | hq
      · refine ⟨by simp, ?_⟩
        rw [List.get?_eq_getElem?]
        exact List.getElem?_concat_length _ _
      · obtain ⟨h1, h2⟩ := h.1 q hq
        refine ⟨by simp; omega, ?_⟩
        rw [List.get?_eq_getElem?, List.getElem?_append, if_pos h1,
          ← List.get?_eq_getElem?]
        exact h2
    · intro q hq
      simp only [List.length_append, List.length_singleton]
      split at hq
      · rcases assocUpd_mem _ _ _ q hq with rfl | hq
        · simp
        · have := h.2 q hq
          omega
      · have := h.2 q hq
        omega

theorem graphInv_pass1 (pkgs : List RawPkg) : GraphInv (pass1 pkgs) := by
  unfold pass1
  have haux : ∀ (l : List RawPkg) (s : GraphState), GraphInv s →
      GraphInv (l.foldl pass1Step s) := by
    intro l
    induction l with
    | nil => intro s hs; exact hs
    | cons p rest ih =>
      intro s hs
      exact ih (pass1Step s p) (graphInv_pass1Step s p hs)
  exact haux pkgs initialGraphState graphInv_initial

/-- The property C6 claims of every edge (minus deduplication): not a
self-loop, and both endpoints are vertices of the graph. -/
def EdgeOk (s : GraphState) (e : Nat × Nat) : Prop :=
  e.1 ≠ e.2 ∧ e.1 < s.nodeIds.length ∧ e.2 < s.nodeIds.length

theorem depFold_edges (s : GraphState) (hinv : GraphInv s) (src : Nat)
    (hsrc : src < s.nodeIds.length) :
    ∀ (deps : List String) (es : List (Nat × Nat)), (∀ e ∈ es, EdgeOk s e) →
      ∀ e ∈ deps.foldl (fun es dep =>
          match assocLookup s.packageMapping dep with
          | some tgt => if tgt ≠ src then es ++ [(src, tgt)] else es
          | none => es) es, EdgeOk s e := by
  intro deps
  induction deps with
  | nil =>
    intro es hes e he
    exact hes e he
  | cons dep deps ih =>
    intro es hes e he
    rw [List.foldl_cons] at he
    refine ih _ ?_ e he
    cases hl : assocLookup s.packageMapping dep with
    | none =>
      simpa [hl] using hes
    | some tgt =>
      simp only [hl]
      by_cases hts : tgt ≠ src
      · rw [if_pos hts]
        intro e' he'
        rcases List.mem_append.mp he' with he' | he'
        · exact hes e' he'
        · simp only [List.mem_singleton] at he'
          subst he'
          exact ⟨fun hc => hts hc.symm, hsrc, hinv.2 _ (assocLookup_mem _ _ _ hl)⟩
      · rw [if_neg hts]
        exact hes

theorem pass2Step_edges (s : GraphState) (hinv : GraphInv s) (p : RawPkg)
    (edges : List (Nat × Nat)) (hedges : ∀ e ∈ edges, EdgeOk s e) :
    ∀ e ∈ pass2Step s edges p, EdgeOk s e := by
  simp only [pass2Step]
  split
  · exact hedges
  · split
    · exact hedges
    · rename_i src hsrc
      exact depFold_edges s hinv src (hinv.1 _ (assocLookup_mem _ _ _ hsrc)).1
        p.inputDrvs edges hedges

theorem pass2_edges (s : GraphState) (hinv : GraphInv s) (pkgs : List RawPkg) :
    ∀ e ∈ pass2 s pkgs, EdgeOk s e := by
  unfold pass2
  have haux : ∀ (l : List RawPkg) (es : List (Nat × Nat)), (∀ e ∈ es, EdgeOk s e) →
      ∀ e ∈ l.foldl (pass2Step s) es, EdgeOk s e := by
    intro l
    induction l with
    | nil =>
      intro es hes
      exact hes
    | cons p rest ih =>
      intro es hes
      exact ih (pass2Step s es p) (pass2Step_edges s hinv p es hes)
  exact haux pkgs [] (by intro e he; simp at he)

theorem buildFromRawPackages_edges_ok (pkgs : List RawPkg) :
    ∀ e ∈ (buildFromRawPackages pkgs).edges, EdgeOk (pass1 pkgs) e :=
  pass2_edges (pass1 pkgs) (graphInv_pass1 pkgs) pkgs

/-! ## C6: edge well-formedness -/

/-- C6 (counterexample): two raw records share the node id `x-1` (same
parsed name and version, different drv paths) and both list the drv path
`d` of a third record among their inputs.  Both records resolve to the same
source vertex, so the edge `(1, 2)` is added twice — edges are NOT
deduplicated, refuting the at-most-one-edge part of the claim. -/
theorem graph_duplicate_edge_counterexample :
    (buildFromRawPackages
        [⟨[], "x-1", "p1", ["d"]⟩, ⟨[], "x-1", "p2", ["d"]⟩,
         ⟨[], "y-2", "d", []⟩]).edges = [(1, 2), (1, 2)] ∧
    ((buildFromRawPackages
        [⟨[], "x-1", "p1", ["d"]⟩, ⟨[], "x-1", "p2", ["d"]⟩,
         ⟨[], "y-2", "d", []⟩]).edges).count (1, 2) = 2 := by
  refine ⟨by decide, by decide⟩

/-- C6 (amended): in the graph built from any list of raw records, no
vertex has an edge to itself, and every edge endpoint is a vertex of the
graph (edges whose input-derivation path does not resolve to a known vertex
are skipped); edges are NOT globally deduplicated, however — records
sharing a node id can contribute parallel edges between the same ordered
pair of vertices. -/
theorem graph_edges_wellformed (pkgs : List RawPkg) :
    ∀ e ∈ (buildFromRawPackages pkgs).edges,
      e.1 ≠ e.2 ∧
      e.1 < (buildFromRawPackages pkgs).state.nodeIds.length ∧
      e.2 < (buildFromRawPackages pkgs).state.nodeIds.length := by
  intro e he
  exact buildFromRawPackages_edges_ok pkgs e he

/-- Witness for `graph_edges_wellformed` at a concrete edge of the
three-record graph. -/
theorem graph_edges_wellformed_witness :
    ((1, 2) ∈ (buildFromRawPackages
        [⟨[], "x-1", "p1", ["d"]⟩, ⟨[], "x-1", "p2", ["d"]⟩,
         ⟨[], "y-2", "d", []⟩]).edges) ∧
    (1 ≠ 2 ∧
      1 < (buildFromRawPackages
        [⟨[], "x-1", "p1", ["d"]⟩, ⟨[], "x-1", "p2", ["d"]⟩,
         ⟨[], "y-2", "d", []⟩]).state.nodeIds.length ∧
      2 < (buildFromRawPackages
        [⟨[], "x-1", "p1", ["d"]⟩, ⟨[], "x-1", "p2", ["d"]⟩,
         ⟨[], "y-2", "d", []⟩]).state.nodeIds.length) :=
  ⟨by decide, graph_edges_wellformed _ (1, 2) (by decide)⟩

/-! ## BFS correctness -/

theorem mem_appendNodeId (nodeIds : List String) (c : Nat) (acc : List String)
    (d : String) :
    d ∈ appendNodeId nodeIds c acc ↔
      d ∈ acc ∨ (nodeIds.get? c = some d ∧ d ≠ "") := by
  unfold appendNodeId
  cases hg : nodeIds.get? c with
  | none => simp
  | some nid =>
    show (d ∈ if nid ≠ "" then acc ++ [nid] else acc) ↔
      d ∈ acc ∨ (some nid = some d ∧ d ≠ "")
    by_cases hne : nid ≠ ""
    · rw [if_pos hne]
      simp only [List.mem_append, List.mem_singleton, Option.some.injEq]
      constructor
      · rintro (h | rfl)
        · exact Or.inl h
        · exact Or.inr ⟨rfl, hne⟩
      · rintro (h | ⟨rfl, _⟩)
        · exact Or.inl h
        · exact Or.inr rfl
    · rw [if_neg hne]
      push_neg at hne
      subst hne
      simp only [Option.some.injEq]
      constructor
      · exact Or.inl
      · rintro (h | ⟨rfl, hc⟩)
        · exact h
        · exact absurd rfl hc

theorem mem_appendNodeId_foldl (nodeIds : List String) :
    ∀ (nbrs : List Nat) (acc : List String) (d : String),
      d ∈ nbrs.foldl (fun deps w => appendNodeId nodeIds w deps) acc ↔
        d ∈ acc ∨ ∃ w ∈ nbrs, nodeIds.get? w = some d ∧ d ≠ "" := by
  intro nbrs
  induction nbrs with
  | nil =>
    intro acc d
    simp
  | cons w ws ih =>
    intro acc d
    rw [List.foldl_cons, ih, mem_appendNodeId]
    simp only [List.mem_cons]
    constructor
    · rintro ((h | h) | ⟨x, hx, hh⟩)
      · exact Or.inl h
      · exact Or.inr ⟨w, Or.inl rfl, h⟩
      · exact Or.inr ⟨x, Or.inr hx, hh⟩
    · rintro (h | ⟨x, (rfl | hx), hh⟩)
      · exact Or.inl (Or.inl h)
      · exact Or.inl (Or.inr hh)
      · exact Or.inr ⟨x, hx, hh⟩

theorem bfsLoop_acc_sub (adj : List (List Nat)) (nodeIds : List String) :
    ∀ (visited : Finset Nat) (queue : List Nat) (acc : List String) (a : String),
      a ∈ acc → a ∈ bfsLoop adj nodeIds visited queue acc := by
  intro visited queue acc
  induction visited, queue, acc using bfsLoop.induct adj nodeIds with
  | case1 vis acc =>
    intro a ha
    rw [bfsLoop]
    exact ha
  | case2 visited c rest acc acc2 vq2 ih =>
    intro a ha
    rw [bfsLoop]
    exact ih a ((mem_appendNodeId nodeIds c acc a).mpr (Or.inl ha))

theorem bfsLoop_queue_processed (adj : List (List Nat)) (nodeIds : List String) :
    ∀ (visited : Finset Nat) (queue : List Nat) (acc : List String)
      (x : Nat) (nid : String), x ∈ queue → nodeIds.get? x = some nid → nid ≠ "" →
      nid ∈ bfsLoop adj nodeIds visited queue acc := by
  intro visited queue acc
  induction visited, queue, acc using bfsLoop.induct adj nodeIds with
  | case1 vis acc =>
    intro x nid hx _ _
    simp at hx
  | case2 visited c rest acc acc2 vq2 ih =>
    intro x nid hx hget hne
    rw [bfsLoop]
    rcases List.mem_cons.mp hx with rfl | hx
    · refine bfsLoop_acc_sub adj nodeIds _ _ _ nid ?_
      exact (mem_appendNodeId nodeIds x acc nid).mpr (Or.inr ⟨hget, hne⟩)
    · obtain ⟨new, hnew⟩ := enqueueFresh_snd_append (adj.getD c []) visited rest
      refine ih x nid ?_ hget hne
      rw [hnew]
      exact List.mem_append_left _ hx

theorem bfsLoop_sound (adj : List (List Nat)) (nodeIds : List String)
    (P : Nat → Prop) (hP : ∀ a, P a → ∀ b ∈ adj.getD a [], P b) :
    ∀ (visited : Finset Nat) (queue : List Nat) (acc : List String),
      (∀ x ∈ visited, P x) → (∀ x ∈ queue, x ∈ visited) →
      ∀ nid ∈ bfsLoop adj nodeIds visited queue acc,
        nid ∈ acc ∨ ∃ x, P x ∧ nodeIds.get? x = some nid := by
  intro visited queue acc
  induction visited, queue, acc using bfsLoop.induct adj nodeIds with
  | case1 vis acc =>
    intro _ _ nid hnid
    rw [bfsLoop] at hnid
    exact Or.inl hnid
  | case2 visited c rest acc acc2 vq2 ih =>
    intro hvis hq nid hnid
    rw [bfsLoop] at hnid
    have hPc : P c := hvis c (hq c (List.mem_cons_self c rest))
    have hvis' : ∀ x ∈ (enqueueFresh (visited, rest) (adj.getD c [])).1, P x := by
      intro x hx
      rcases (enqueueFresh_fst_mem _ _ _ _).mp hx with hx | hx
      · exact hvis x hx
      · exact hP c hPc x hx
    have hq' : ∀ x ∈ (enqueueFresh (visited, rest) (adj.getD c [])).2,
        x ∈ (enqueueFresh (visited, rest) (adj.getD c [])).1 :=
      enqueueFresh_queue_sub_vis _ _ _
        (fun x hx => hq x (List.mem_cons_of_mem c hx))
    rcases ih hvis' hq' nid hnid with hacc | hex
    · rcases (mem_appendNodeId nodeIds c acc nid).mp hacc with hacc | ⟨hg, _⟩
      · exact Or.inl hacc
      · exact Or.inr ⟨c, hPc, hg⟩
    · exact Or.inr hex

/-! ## Adjacency-list membership -/

theorem mem_outAdjFold (edges : List (Nat × Nat)) :
    ∀ (adj : List (List Nat)) (a b : Nat),
      b ∈ (edges.foldl (fun adj e => adj.set e.1 (adj.getD e.1 [] ++ [e.2])) adj).getD
            a [] ↔
        b ∈ adj.getD a [] ∨ ((a, b) ∈ edges ∧ a < adj.length) := by
  induction edges with
  | nil =>
    intro adj a b
    simp
  | cons e es ih =>
    intro adj a b
    rw [List.foldl_cons, ih, List.length_set]
    have hstep : b ∈ (adj.set e.1 (adj.getD e.1 [] ++ [e.2])).getD a [] ↔
        b ∈ adj.getD a [] ∨ ((a, b) = e ∧ a < adj.length) := by
      by_cases hae : e.1 = a
      · subst hae
        by_cases hlt : e.1 < adj.length
        · rw [List.getD_eq_getElem?_getD, List.getElem?_set_self hlt]
          simp only [Option.getD_some, List.mem_append, List.mem_singleton]
          rw [List.getD_eq_getElem?_getD]
          constructor
          · rintro (h | rfl)
            · exact Or.inl h
            · exact Or.inr ⟨(Prod.ext_iff.mpr ⟨rfl, rfl⟩ : (e.1, e.2) = e), hlt⟩
          · rintro (h | ⟨he, _⟩)
            · exact Or.inl h
            · exact Or.inr (congrArg Prod.snd he)
        · rw [List.set_eq_of_length_le (by omega)]
          constructor
          · exact Or.inl
          · rintro (h | ⟨_, hc⟩)
            · exact h
            · omega
      · rw [List.getD_eq_getElem?_getD, List.getElem?_set_ne hae,
          ← List.getD_eq_getElem?_getD]
        constructor
        · exact Or.inl
        · rintro (h | ⟨he, _⟩)
          · exact h
          · exact absurd (congrArg Prod.fst he).symm hae
    rw [hstep]
    simp only [List.mem_cons]
    tauto

theorem mem_buildOutAdj (n : Nat) (edges : List (Nat × Nat)) (a b : Nat) :
    b ∈ (buildOutAdj n edges).getD a [] ↔ (a, b) ∈ edges ∧ a < n := by
  unfold buildOutAdj
  rw [mem_outAdjFold]
  rw [List.length_replicate]
  have hbase : (List.replicate n ([] : List Nat)).getD a [] = [] := by
    rw [List.getD_eq_getElem?_getD, List.getElem?_replicate]
    split <;> rfl
  rw [hbase]
  simp

/-! ## Projection of vertex paths to package-level paths -/

theorem transGen_project (g : Graph)
    (hb : ∀ e ∈ g.edges, e.1 < g.state.nodeIds.length ∧
      e.2 < g.state.nodeIds.length) :
    ∀ v x, Relation.TransGen (adjRel (graphOutAdj g)) v x →
      ∀ pid, g.state.nodeIds.get? v = some pid →
        ∃ xid, g.state.nodeIds.get? x = some xid ∧
          Relation.TransGen (nodeDepRel g) pid xid := by
  intro v x h
  induction h with
  | single hstep =>
    rename_i b
    intro pid hpid
    have hedge := (mem_buildOutAdj _ _ _ _).mp hstep
    have hblt : b < g.state.nodeIds.length := (hb _ hedge.1).2
    refine ⟨g.state.nodeIds[b], ?_, ?_⟩
    · rw [List.get?_eq_getElem?]
      exact List.getElem?_eq_getElem hblt
    · exact Relation.TransGen.single
        ⟨(v, b), hedge.1, hpid, by
          rw [List.get?_eq_getElem?]
          exact List.getElem?_eq_getElem hblt⟩
  | tail hvx hstep ih =>
    rename_i x' b
    intro pid hpid
    obtain ⟨xid, hxid, hpath⟩ := ih pid hpid
    have hedge := (mem_buildOutAdj _ _ _ _).mp hstep
    have hblt : b < g.state.nodeIds.length := (hb _ hedge.1).2
    refine ⟨g.state.nodeIds[b], ?_, ?_⟩
    · rw [List.get?_eq_getElem?]
      exact List.getElem?_eq_getElem hblt
    · exact Relation.TransGen.tail hpath
        ⟨(x', b), hedge.1, hxid, by
          rw [List.get?_eq_getElem?]
          exact List.getElem?_eq_getElem hblt⟩

/-! ## C7: direct and transitive dependencies -/

/-- C7: in the graph built from any raw records, every direct dependency of
a node `p` is contained in `p`'s transitive dependencies; and `p` itself
appears among its own transitive dependencies only if `p` lies on a
directed dependency cycle reaching back to `p` (a `TransGen`-path of the
package-level dependency relation from `p` to `p`). -/
theorem graph_dependencies_props (pkgs : List RawPkg) (p : String) :
    (∀ d ∈ getDependencies (buildFromRawPackages pkgs) p,
        d ∈ getAllDependencies (buildFromRawPackages pkgs) p) ∧
    (p ∈ getAllDependencies (buildFromRawPackages pkgs) p →
      Relation.TransGen (nodeDepRel (buildFromRawPackages pkgs)) p p) := by
  have hbound : ∀ e ∈ (buildFromRawPackages pkgs).edges,
      e.1 < (buildFromRawPackages pkgs).state.nodeIds.length ∧
      e.2 < (buildFromRawPackages pkgs).state.nodeIds.length :=
    fun e he => (buildFromRawPackages_edges_ok pkgs e he).2
  constructor
  · intro d hd
    simp only [getDependencies] at hd
    split at hd
    · simp at hd
    · rename_i v hv
      rw [mem_appendNodeId_foldl] at hd
      rcases hd with hd | ⟨w, hw, hgw, hdne⟩
      · simp at hd
      · simp only [getAllDependencies, hv]
        rcases mem_enqueueFresh_snd _ ∅ [] w hw with hin | hin
        · simp at hin
        · exact bfsLoop_queue_processed _ _ _ _ _ w d hin hgw hdne
  · intro hp
    simp only [getAllDependencies] at hp
    split at hp
    · simp at hp
    · rename_i v hv
      have hPstep : ∀ a, Relation.TransGen (adjRel (graphOutAdj
            (buildFromRawPackages pkgs))) v a →
          ∀ b ∈ (graphOutAdj (buildFromRawPackages pkgs)).getD a [],
            Relation.TransGen (adjRel (graphOutAdj (buildFromRawPackages pkgs))) v b :=
        fun a ha b hb => Relation.TransGen.tail ha hb
      have hvis : ∀ x ∈ (enqueueFresh (∅, [])
          ((graphOutAdj (buildFromRawPackages pkgs)).getD v [])).1,
          Relation.TransGen (adjRel (graphOutAdj (buildFromRawPackages pkgs))) v x := by
        intro x hx
        rcases (enqueueFresh_fst_mem _ _ _ _).mp hx with hx | hx
        · simp at hx
        · exact Relation.TransGen.single hx
      have hq : ∀ x ∈ (enqueueFresh (∅, [])
          ((graphOutAdj (buildFromRawPackages pkgs)).getD v [])).2,
          x ∈ (enqueueFresh (∅, [])
            ((graphOutAdj (buildFromRawPackages pkgs)).getD v [])).1 :=
        enqueueFresh_queue_sub_vis _ _ _ (by intro x hx; simp at hx)
      rcases bfsLoop_sound _ _ _ hPstep _ _ _ hvis hq p hp with hacc | ⟨x, hPx, hgx⟩
      · simp at hacc
      · have hvp : (buildFromRawPackages pkgs).state.nodeIds.get? v = some p :=
          ((graphInv_pass1 pkgs).1 _ (assocLookup_mem _ _ _ hv)).2
        obtain ⟨xid, hxid, hpath⟩ :=
          transGen_project (buildFromRawPackages pkgs) hbound v x hPx p hvp
        rw [hgx] at hxid
        cases hxid
        exact hpath

/-- Witness for `graph_dependencies_props` on a two-node cycle
`a-1 → b-1 → a-1`. -/
theorem graph_dependencies_props_witness :
    ("b-1" ∈ getDependencies (buildFromRawPackages
        [⟨[], "a-1", "pa", ["pb"]⟩, ⟨[], "b-1", "pb", ["pa"]⟩]) "a-1" ∧
      "b-1" ∈ getAllDependencies (buildFromRawPackages
        [⟨[], "a-1", "pa", ["pb"]⟩, ⟨[], "b-1", "pb", ["pa"]⟩]) "a-1") ∧
    ("a-1" ∈ getAllDependencies (buildFromRawPackages
        [⟨[], "a-1", "pa", ["pb"]⟩, ⟨[], "b-1", "pb", ["pa"]⟩]) "a-1" ∧
      Relation.TransGen (nodeDepRel (buildFromRawPackages
        [⟨[], "a-1", "pa", ["pb"]⟩, ⟨[], "b-1", "pb", ["pa"]⟩])) "a-1" "a-1") := by
  have hall : getAllDependencies (buildFromRawPackages
      [⟨[], "a-1", "pa", ["pb"]⟩, ⟨[], "b-1", "pb", ["pa"]⟩]) "a-1" =
      ["b-1", "a-1"] := by
    have h1 : assocLookup (buildFromRawPackages
        [⟨[], "a-1", "pa", ["pb"]⟩, ⟨[], "b-1", "pb", ["pa"]⟩]).state.nodeIdToVertex
        "a-1" = some 0 := by decide
    have h2 : graphOutAdj (buildFromRawPackages
        [⟨[], "a-1", "pa", ["pb"]⟩, ⟨[], "b-1", "pb", ["pa"]⟩]) = [[1], [0]] := by
      decide
    have h3 : (buildFromRawPackages
        [⟨[], "a-1", "pa", ["pb"]⟩, ⟨[], "b-1", "pb", ["pa"]⟩]).state.nodeIds =
        ["a-1", "b-1"] := by decide
    simp only [getAllDependencies, h1, h2, h3]
    simp +decide [bfsLoop, enqueueFresh, appendNodeId]
  refine ⟨⟨by decide, ?_⟩, ?_, ?_⟩
  · exact (graph_dependencies_props
      [⟨[], "a-1", "pa", ["pb"]⟩, ⟨[], "b-1", "pb", ["pa"]⟩] "a-1").1 "b-1" (by decide)
  · rw [hall]
    decide
  · exact (graph_dependencies_props
      [⟨[], "a-1", "pa", ["pb"]⟩, ⟨[], "b-1", "pb", ["pa"]⟩] "a-1").2
      (by rw [hall]; decide)

/-! ## Rate-limiter invariants -/

/-- The run invariant tying the limiter state to the recorded history
`past`: the token deque holds exactly the events of the trailing window of
the last acquisition time `t`, the request deque mirrors it, the history is
chronological and bounded by `t`, and every trailing window of the history
is within the limits. -/
def RateInv (lim : RateLimits) (s : RateState) (t : ℚ)
    (past : List (ℚ × Nat)) : Prop :=
  s.tokTimes = past.filter (fun e => decide (t - 60 ≤ e.1)) ∧
  s.reqTimes = s.tokTimes.map Prod.fst ∧
  List.Pairwise (fun a b : ℚ × Nat => a.1 ≤ b.1) past ∧
  (∀ e ∈ past, e.1 ≤ t) ∧
  (∀ q : ℚ, (windowEvents past q).length ≤ lim.maxRpm ∧
    tokenSum (windowEvents past q) ≤ lim.maxTpm)

/-- On a chronologically sorted deque, dropping the stale prefix is the
same as filtering out all stale entries. -/
theorem dropWhile_lt_eq_filter (c : ℚ) :
    ∀ (l : List (ℚ × Nat)), List.Pairwise (fun a b : ℚ × Nat => a.1 ≤ b.1) l →
      l.dropWhile (fun e => decide (e.1 < c)) =
        l.filter (fun e => decide (c ≤ e.1)) := by
  intro l
  induction l with
  | nil =>
    intro _
    rfl
  | cons a l ih =>
    intro hp
    rw [List.pairwise_cons] at hp
    by_cases ha : a.1 < c
    · rw [List.dropWhile_cons_of_pos (by simpa using ha),
        List.filter_cons_of_neg (by simpa using not_le.mpr ha)]
      exact ih hp.2
    · rw [List.dropWhile_cons_of_neg (by simpa using ha),
        List.filter_cons_of_pos (by simpa using not_lt.mp ha)]
      have hall : ∀ b ∈ l, (fun e : ℚ × Nat => decide (c ≤ e.1)) b = true := by
        intro b hb
        simp only [decide_eq_true_eq]
        exact le_trans (not_lt.mp ha) (hp.1 b hb)
      rw [List.filter_eq_self.mpr hall]

/-- Pruning the request deque mirrors pruning the token deque. -/
theorem pruneReq_map_fst (c : ℚ) (l : List (ℚ × Nat)) :
    pruneReq c (l.map Prod.fst) = (pruneTok c l).map Prod.fst := by
  unfold pruneReq pruneTok
  rw [List.dropWhile_map]
  rfl

theorem windowEvents_append (l1 l2 : List (ℚ × Nat)) (q : ℚ) :
    windowEvents (l1 ++ l2) q = windowEvents l1 q ++ windowEvents l2 q :=
  List.filter_append _ _

theorem tokenSum_append (l1 l2 : List (ℚ × Nat)) :
    tokenSum (l1 ++ l2) = tokenSum l1 + tokenSum l2 := by
  unfold tokenSum
  rw [List.map_append, List.sum_append]

/-- One acquisition preserves the run invariant, with the history extended
by the recorded event. -/
theorem rateInv_step (lim : RateLimits) (s : RateState) (t now : ℚ) (est : Nat)
    (past : List (ℚ × Nat)) (hinv : RateInv lim s t past) (htn : t ≤ now)
    (hok : acquireOk lim s now est) :
    RateInv lim (acquireResult s now est) now (past ++ [(now, est)]) := by
  obtain ⟨htok, hreq, hsort, hle, hwin⟩ := hinv
  have hptok : pruneTok (now - 60) s.tokTimes =
      past.filter (fun e => decide (now - 60 ≤ e.1)) := by
    rw [htok]
    unfold pruneTok
    rw [dropWhile_lt_eq_filter _ _ (hsort.filter _), List.filter_filter]
    refine List.filter_congr ?_
    intro x _
    by_cases h : now - 60 ≤ x.1
    · have ht60 : t - 60 ≤ x.1 := le_trans (by linarith) h
      simp [h, ht60]
    · simp [h]
  have hfsub : ∀ q : ℚ, now ≤ q →
      (windowEvents past q).Sublist
        (past.filter (fun e => decide (now - 60 ≤ e.1))) := by
    intro q hq
    unfold windowEvents
    refine List.monotone_filter_right _ ?_
    intro a ha
    simp only [Bool.and_eq_true, decide_eq_true_eq] at ha
    simp only [decide_eq_true_eq]
    linarith [ha.1]
  have hcount : (past.filter (fun e => decide (now - 60 ≤ e.1))).length < lim.maxRpm := by
    have h1 := hok.1
    rw [hreq, pruneReq_map_fst, hptok, List.length_map] at h1
    exact h1
  have hsum : tokenSum (past.filter (fun e => decide (now - 60 ≤ e.1))) + est ≤
      lim.maxTpm := by
    have h2 := hok.2
    rw [hptok] at h2
    exact h2
  refine ⟨?_, ?_, ?_, ?_, ?_⟩
  · show pruneTok (now - 60) s.tokTimes ++ [(now, est)] = _
    rw [hptok, List.filter_append]
    congr 1
    simp only [List.filter_cons, List.filter_nil]
    rw [if_pos (by simp only [Bool.and_eq_true, decide_eq_true_eq]; norm_num)]
  · show pruneReq (now - 60) s.reqTimes ++ [now] =
      List.map Prod.fst (pruneTok (now - 60) s.tokTimes ++ [(now, est)])
    rw [hreq, pruneReq_map_fst, List.map_append]
    rfl
  · rw [List.pairwise_append]
    refine ⟨hsort, by simp, ?_⟩
    intro a ha b hb
    simp only [List.mem_singleton] at hb
    subst hb
    exact le_trans (hle a ha) htn
  · intro e he
    rcases List.mem_append.mp he with he | he
    · exact le_trans (hle e he) htn
    · simp only [List.mem_singleton] at he
      subst he
      rfl
  · intro q
    rw [windowEvents_append]
    by_cases hq : q - 60 ≤ now ∧ now ≤ q
    · have hsingle : windowEvents [((now : ℚ), est)] q = [(now, est)] := by
        unfold windowEvents
        simp only [List.filter_cons, List.filter_nil]
        rw [if_pos (by simp only [Bool.and_eq_true, decide_eq_true_eq]; exact hq)]
      rw [hsingle]
      have hlen := (hfsub q hq.2).length_le
      have hts : tokenSum (windowEvents past q) ≤
          tokenSum (past.filter (fun e => decide (now - 60 ≤ e.1))) :=
        ((hfsub q hq.2).map Prod.snd).sum_le_sum (fun a _ => Nat.zero_le a)
      have hest : tokenSum [((now : ℚ), est)] = est := by
        simp [tokenSum]
      constructor
      · rw [List.length_append, List.length_singleton]
        omega
      · rw [tokenSum_append, hest]
        omega
    · have hsingle : windowEvents [((now : ℚ), est)] q = [] := by
        unfold windowEvents
        simp only [List.filter_cons, List.filter_nil]
        rw [if_neg]
        simp only [Bool.and_eq_true, decide_eq_true_eq]
        exact hq
      rw [hsingle, List.append_nil]
      exact hwin q

/-- The invariant holds initially: empty deques, empty history. -/
theorem rateInv_initial (lim : RateLimits) (t : ℚ) :
    RateInv lim initialRateState t [] := by
  refine ⟨rfl, rfl, List.Pairwise.nil, ?_, ?_⟩
  · intro e he
    simp at he
  · intro q
    exact ⟨Nat.zero_le _, Nat.zero_le _⟩

/-- Every fresh-timestamp run keeps every trailing window of the full
recorded history within the limits — the bound the limiter was intended to
enforce. -/
theorem validRun_window (lim : RateLimits) :
    ∀ (s : RateState) (t : ℚ) (evs : List (ℚ × Nat)), ValidRun lim s t evs →
      ∀ (past : List (ℚ × Nat)), RateInv lim s t past →
      ∀ q : ℚ, (windowEvents (past ++ evs) q).length ≤ lim.maxRpm ∧
        tokenSum (windowEvents (past ++ evs) q) ≤ lim.maxTpm := by
  intro s t evs hrun
  induction hrun with
  | nil s t =>
    intro past hinv q
    simpa using hinv.2.2.2.2 q
  | cons s t now est rest htn hok hrest ih =>
    intro past hinv q
    have hinv' := rateInv_step lim s t now est past hinv htn hok
    have hq := ih (past ++ [(now, est)]) hinv' q
    rw [List.append_assoc] at hq
    simpa using hq

/-! ## C2: sliding-window rate limits -/

/-- Fresh-timestamp executions are executions of the code (take the
sampled time to be the lock-grant time). -/
theorem validRun_limiterRun (lim : RateLimits) (s : RateState) (t : ℚ)
    (evs : List (ℚ × Nat)) (h : ValidRun lim s t evs) : LimiterRun lim s t evs := by
  induction h with
  | nil s t => exact LimiterRun.nil s t
  | cons s t now est rest htn hok _ ih =>
    exact LimiterRun.stepStale s t now now est rest htn le_rfl hok ih

/-- In a worker's event sequence, capacity acquisition (event 0) precedes
every HTTP request attempt: this part of the claimed behavior does hold on
the code. -/
theorem workerEvents_acquire_first (text : String) (attempts i a : Nat)
    (hi : (workerEvents text attempts).get? i = some (ClientEvent.request a)) :
    ∃ j, j < i ∧ (workerEvents text attempts).get? j =
      some (ClientEvent.acquire (estimateTokens text)) := by
  refine ⟨0, ?_, rfl⟩
  cases i with
  | zero =>
    rw [show (workerEvents text attempts).get? 0 =
      some (ClientEvent.acquire (estimateTokens text)) from rfl] at hi
    cases hi
  | succ n => omega

/-- C2: the claimed window invariant FAILS on the code.  `now` is sampled
one line before the rate lock is acquired, and the wait loop sleeps while
holding the lock, so a waiter whose first check passes records a stale
timestamp.  Concretely, with `max_rpm = 10`, `max_tpm = 100`: worker 1
samples time 0 and records `(0, 100)`; worker 2 samples time 2, finds the
token window full (101 > 100), sleeps holding the lock, and records the
fresh `(61, 1)`; worker 3 sampled time 3 before blocking on the lock, is
granted it at time 62, its stale first check prunes at cutoff `-57`, sees
only 51 tokens, and records `(3, 50)`.  The recorded trailing window
`[-57, 3]` then carries `100 + 50 = 150` estimated tokens, exceeding
`max_tpm = 100` — the code contradicts the claim (the intended invariant;
`ValidRun`, the fix's discipline, provably satisfies it). -/
theorem rate_limiter_stale_violation :
    LimiterRun ⟨10, 100⟩ initialRateState 0
      [((0 : ℚ), 100), ((61 : ℚ), 1), ((3 : ℚ), 50)] ∧
    windowEvents [((0 : ℚ), 100), ((61 : ℚ), 1), ((3 : ℚ), 50)] 3 =
      [((0 : ℚ), 100), ((3 : ℚ), 50)] ∧
    tokenSum (windowEvents [((0 : ℚ), 100), ((61 : ℚ), 1), ((3 : ℚ), 50)] 3) = 150 ∧
    (⟨10, 100⟩ : RateLimits).maxTpm <
      tokenSum (windowEvents [((0 : ℚ), 100), ((61 : ℚ), 1), ((3 : ℚ), 50)] 3) := by
  refine ⟨?_, ?_, ?_, ?_⟩
  · refine LimiterRun.stepStale _ _ 0 0 _ _ le_rfl le_rfl ?_ ?_
    · norm_num [acquireOk, initialRateState, pruneReq, pruneTok, tokenSum]
    refine LimiterRun.stepWait _ _ 2 2 61 _ _ (by norm_num) le_rfl (by norm_num) ?_ ?_ ?_
    · norm_num [acquireOk, acquireResult, initialRateState, pruneReq, pruneTok, tokenSum,
        List.dropWhile]
    · norm_num [acquireOk, acquireResult, initialRateState, pruneReq, pruneTok, tokenSum,
        List.dropWhile]
    refine LimiterRun.stepStale _ _ 3 62 _ _ (by norm_num) (by norm_num) ?_ ?_
    · norm_num [acquireOk, acquireResult, initialRateState, pruneReq, pruneTok, tokenSum,
        List.dropWhile]
    exact LimiterRun.nil _ _
  · norm_num [windowEvents, List.filter]
  · norm_num [windowEvents, List.filter, tokenSum]
  · norm_num [windowEvents, List.filter, tokenSum]

/-! ## C4: name/version parsing fallback -/

/-- C4 (counterexample): the name `"foo-bar"` contains a `-`, none of its
`-`-separated segments starts with a digit or `v`, yet the parser does NOT
return `("foo-bar", "unknown")` — it treats the last segment as the version
and returns `("foo", "bar")`.  This refutes the claim that such names are
returned unchanged with version `"unknown"`. -/
theorem parseNameVersion_no_version_segment_counterexample :
    strContains "foo-bar" "-" = true ∧
    (∀ part ∈ pySplit '-' "foo-bar", versionSegStart part = false) ∧
    parseNameVersion "foo-bar" = ("foo", "bar") ∧
    parseNameVersion "foo-bar" ≠ ("foo-bar", "unknown") := by
  refine ⟨by decide, by decide, by decide, by decide⟩

/-- C4 (amended): for every name that contains at least one `-` but has no
`-`-separated segment whose first character is a digit or `v`, the parser
falls back to treating the LAST segment as the version: it returns the
join of all segments but the last as the package name and the last segment
as the version. -/
theorem parseNameVersion_no_version_segment (name : String)
    (hdash : strContains name "-" = true)
    (hseg : ∀ part ∈ pySplit '-' name, versionSegStart part = false) :
    parseNameVersion name =
      (pyJoin "-" (pySplit '-' name).dropLast, (pySplit '-' name).getLast!) := by
  have hlen : 2 ≤ (pySplit '-' name).length := (strContains_dash_iff name).mp hdash
  have hne : name ≠ "" := by
    intro h
    subst h
    simp [pySplit, splitCharList] at hlen
  have hfind : List.findIdx? versionSegStart (pySplit '-' name) 0 = none :=
    findIdx?_eq_none_of_all_false _ _ hseg 0
  have hlt : ¬ (pySplit '-' name).length < 2 := by omega
  simp only [parseNameVersion, if_neg hne, if_neg hlt, hfind]

/-- Witness for `parseNameVersion_no_version_segment` at `"foo-bar"`. -/
theorem parseNameVersion_no_version_segment_witness :
    strContains "foo-bar" "-" = true ∧
    parseNameVersion "foo-bar" =
      (pyJoin "-" (pySplit '-' "foo-bar").dropLast, (pySplit '-' "foo-bar").getLast!) :=
  ⟨by decide, parseNameVersion_no_version_segment "foo-bar" (by decide) (by decide)⟩

/-! ## C9: token estimate -/

/-- C9 (counterexample): for the text `"a b"` (3 characters, 2 words) the
embedding client's token estimate is `max(1, 3 / 4) = 1`, while the spec's
formula `max(chars/4, word_count)` gives `2`.  The claim that the estimate
equals `max(chars/4, word_count)` is false. -/
theorem estimateTokens_counterexample :
    estimateTokens "a b" = 1 ∧ specTokenEstimate "a b" = 2 ∧
    estimateTokens "a b" ≠ specTokenEstimate "a b" := by
  refine ⟨by decide, by decide, by decide⟩

/-- C9 (amended): the embedding client's token estimate is
`max(1, ⌊chars / 4⌋)`: it equals `⌊chars / 4⌋` for texts of at least 4
characters and `1` for shorter texts, and it depends only on the character
count — the word count plays no role. -/
theorem estimateTokens_spec (text : String) :
    (4 ≤ text.length → estimateTokens text = text.length / 4) ∧
    (text.length < 4 → estimateTokens text = 1) ∧
    (∀ other : String, other.length = text.length →
      estimateTokens other = estimateTokens text) := by
  refine ⟨?_, ?_, ?_⟩
  · intro h
    unfold estimateTokens
    omega
  · intro h
    unfold estimateTokens
    omega
  · intro other h
    unfold estimateTokens
    rw [h]

/-- Witness for `estimateTokens_spec` at `"abcdefgh"`. -/
theorem estimateTokens_spec_witness :
    4 ≤ ("abcdefgh" : String).length ∧
    estimateTokens "abcdefgh" = ("abcdefgh" : String).length / 4 :=
  ⟨by decide, (estimateTokens_spec "abcdefgh").1 (by decide)⟩

/-! ## C10: the two package-id derivations agree -/

/-- C10: for every package dictionary whose `attributePath` entry, when
present, holds a string, the relational writer's `_package_id` and the
compressed-artifact writer's `_package_id` return the same package id, so
the two artifacts key every package identically. -/
theorem packageId_agree (p : PkgDict)
    (h : ∀ v, p.attributePath = some v → ∃ s, v = JVal.jstr s) :
    sqlitePackageId p = minifiedPackageId p := by
  obtain ⟨a, n, v⟩ := p
  match a with
  | none => rfl
  | some (.jstr s) => rfl
  | some .jfalsy =>
    obtain ⟨s, hs⟩ := h JVal.jfalsy rfl
    exact absurd hs (by intro hh; cases hh)
  | some .jtruthy =>
    obtain ⟨s, hs⟩ := h JVal.jtruthy rfl
    exact absurd hs (by intro hh; cases hh)

/-- Witness for `packageId_agree` on a concrete architecture-suffixed
attribute path. -/
theorem packageId_agree_witness :
    sqlitePackageId
        ⟨some (JVal.jstr "hello.x86_64-linux"),
         some (JVal.jstr "hello"), some (JVal.jstr "2.12")⟩ =
      minifiedPackageId
        ⟨some (JVal.jstr "hello.x86_64-linux"),
         some (JVal.jstr "hello"), some (JVal.jstr "2.12")⟩ ∧
    minifiedPackageId
        ⟨some (JVal.jstr "hello.x86_64-linux"),
         some (JVal.jstr "hello"), some (JVal.jstr "2.12")⟩ =
      some "hello" :=
  ⟨packageId_agree _ (fun v hv => ⟨"hello.x86_64-linux",
      (Option.some.inj hv).symm⟩),
   by decide⟩

end Fdnix
